import Mathlib

/-!
Verification development for the deepracer-llm-agent repository.

The Python sources are shallowly embedded: pure functions become Lean
functions over `ℚ` (Python floats are modelled as exact rationals; the
claims under study are about order/shape, not rounding), fallible code
returns `Except String`/`Option`, and the mutable per-handler state
(conversation context, loaded metadata) is passed explicitly.
-/

namespace DeepracerLLMAgent

/-! ### Action-space data model (utils/model_metadata.py)

`DiscreteAction` mirrors the `{steering_angle, speed}` dicts and
`ContinuousActionSpace` the `{steering_angle: {low, high}, speed: {low, high}}`
dict of the metadata file. -/

structure DiscreteAction where
  steering_angle : ℚ
  speed : ℚ
deriving DecidableEq, Repr

structure ContinuousRange where
  low : ℚ
  high : ℚ
deriving DecidableEq, Repr

structure ContinuousActionSpace where
  steering_angle : ContinuousRange
  speed : ContinuousRange
deriving DecidableEq, Repr

/-- The `ActionSpace` union type of `model_metadata.py`: either a list of
discrete actions or a pair of continuous ranges.  For validly loaded
metadata the explicit `action_space_type` always agrees with the structure
(the validator rejects mismatches), so the tag and the data are merged. -/
inductive ActionSpace where
  | discrete (actions : List DiscreteAction)
  | continuous (space : ContinuousActionSpace)
deriving DecidableEq, Repr

/-- Squared Euclidean distance between a discrete action and a target pair.
`find_closest_discrete_action` compares `math.sqrt` of these quantities;
since `Real.sqrt` is strictly monotone on nonnegatives (see
`sqrt_lt_sqrt_iff_of_nonneg` below) comparing the squares is an exact model
of the source's comparisons. -/
def distSq (a : DiscreteAction) (s v : ℚ) : ℚ :=
  (a.steering_angle - s) * (a.steering_angle - s) + (a.speed - v) * (a.speed - v)

/-- Loop body of `find_closest_discrete_action`: `min_distance` starts at
`float('inf')`, modelled as `none`. -/
def fcLoop (s v : ℚ) : List DiscreteAction → DiscreteAction → Option ℚ → DiscreteAction
  | [], best, _ => best
  | a :: rest, best, minD =>
    let d := distSq a s v
    if (match minD with
        | none => true
        | some m => decide (d < m)) = true then
      fcLoop s v rest a (some d)
    else
      fcLoop s v rest best minD

/-- `ModelMetadataHandler.find_closest_discrete_action` restricted to a
discrete space.  The source initializes `closest_action = actions[0]` and
then scans the whole list; on an empty list that subscript raises
`IndexError`, modelled here as `none`. -/
def find_closest_discrete_action (actions : List DiscreteAction) (s v : ℚ) :
    Option DiscreteAction :=
  match actions with
  | [] => none
  | a0 :: _ => some (fcLoop s v actions a0 none)

/-- `max(low, min(high, x))`, the clamp used by the continuous branch of
`normalize_action`. -/
def clampQ (low high x : ℚ) : ℚ := max low (min high x)

/-- `ModelMetadataHandler.normalize_action`.  The handler state
`self.metadata` is passed explicitly: `none` models the unloaded handler
(`raise ValueError("No metadata loaded")`).  The continuous branch clamps
each axis; the discrete branch returns the closest action, and any
`IndexError`/`ValueError` escaping the discrete lookup is an `.error`. -/
def normalize_action (metadata : Option ActionSpace) (steering_angle speed : ℚ) :
    Except String DiscreteAction :=
  match metadata with
  | none => .error "No metadata loaded"
  | some (.continuous continuous_space) =>
    .ok { steering_angle :=
            clampQ continuous_space.steering_angle.low
              continuous_space.steering_angle.high steering_angle,
          speed :=
            clampQ continuous_space.speed.low
              continuous_space.speed.high speed }
  | some (.discrete discrete_actions) =>
    match find_closest_discrete_action discrete_actions steering_angle speed with
    | some closest_action => .ok closest_action
    | none => .error "list index out of range"

/-! ### Metadata validation (utils/model_metadata.py `_validate_metadata`)

The loaded JSON dict is modelled structurally.  A field of type `Option α`
is `some` exactly when the key is present with a value of the checked
Python type (`isinstance` checks are folded into the `Option`). -/

/-- One entry of a raw discrete `action_space` list: `none` models a
missing or non-numeric `steering_angle`/`speed` key. -/
structure RawDiscreteEntry where
  steering_angle : Option ℚ
  speed : Option ℚ
deriving DecidableEq, Repr

/-- A raw continuous range dict: `none` models missing or non-numeric
`low`/`high`. -/
structure RawRange where
  low : Option ℚ
  high : Option ℚ
deriving DecidableEq, Repr

/-- The raw `action_space` value before validation: a JSON list (discrete
shape) or a JSON object with optional `speed`/`steering_angle` range
entries (continuous shape). -/
inductive RawActionSpace where
  | list (entries : List RawDiscreteEntry)
  | ranges (speed : Option RawRange) (steering_angle : Option RawRange)
deriving DecidableEq, Repr

/-- The raw `llm_config` dict.  `max_tokens`/`context_window` are `some`
exactly when present with an `int` value; `system_prompt_ok` is the
`isinstance(..., (str, list))` check. -/
structure RawLLMConfig where
  model_id : Option String
  max_tokens : Option Int
  system_prompt_ok : Bool
  context_window : Option Int
deriving DecidableEq, Repr

/-- The raw loaded metadata dict.  `sensor_is_list` is
`"sensor" in metadata and isinstance(metadata["sensor"], list)`. -/
structure RawMetadata where
  action_space : Option RawActionSpace
  sensor_is_list : Bool
  neural_network : Option String
  training_algorithm : Option String
  action_space_type : Option String
  llm_config : Option RawLLMConfig
deriving DecidableEq, Repr

/-- The two members of the `ActionSpaceType` enum. -/
inductive ActionSpaceTypeTag where
  | discrete
  | continuous
deriving DecidableEq, Repr

/-- `ModelMetadataHandler.get_action_space_type`: the explicit
`action_space_type` field wins (an unknown enum string raises
`ValueError`, modelled as `.error`); otherwise the type is inferred from
whether `action_space` is a list.  The handler's `if not self.metadata`
guard lives one level up (callers pass a loaded `RawMetadata`). -/
def get_action_space_type (md : RawMetadata) : Except String ActionSpaceTypeTag :=
  match md.action_space_type with
  | some t =>
    if t = "discrete" then .ok .discrete
    else if t = "continuous" then .ok .continuous
    else .error "invalid ActionSpaceType"
  | none =>
    match md.action_space with
    | some (.list _) => .ok .discrete
    | _ => .ok .continuous

/-- `ModelMetadataHandler._validate_metadata`, with the checks in source
order.  `.error msg` models `raise ValueError(msg)`. -/
def validate_metadata (md : RawMetadata) : Except String Unit := do
  match md.action_space with
  | none => .error "Missing action_space in model metadata"
  | some raw_space =>
    if ¬ md.sensor_is_list then
      .error "Missing or invalid sensor configuration in model metadata"
    else
      match md.neural_network with
      | none => .error "Missing neural_network in model metadata"
      | some nn => do
        if nn = "LLM" then
          match md.llm_config with
          | none => .error "LLM neural network type requires llm_config to be specified"
          | some cfg =>
            if cfg.model_id = none then .error "Missing model_id in llm_config"
            else if cfg.max_tokens = none then
              .error "Missing or invalid max_tokens in llm_config"
            else if ¬ cfg.system_prompt_ok then
              .error "Missing or invalid system_prompt in llm_config"
            else
              match cfg.context_window with
              | none => .error "Invalid context_window in llm_config"
              | some cw =>
                if cw < 0 then .error "Invalid context_window in llm_config"
                else .ok ()
        else
          if md.training_algorithm = none then
            .error "Missing training_algorithm for traditional neural network"
          else .ok ()
        let tag ← get_action_space_type md
        match tag with
        | .discrete =>
          match raw_space with
          | .ranges _ _ => .error "Discrete action space should be a list"
          | .list entries =>
            if entries.all (fun a => a.steering_angle.isSome ∧ a.speed.isSome) then
              .ok ()
            else .error "Invalid discrete action format"
        | .continuous =>
          match raw_space with
          | .list _ => .error "Continuous action space missing required ranges"
          | .ranges sp st =>
            match sp, st with
            | none, _ => .error "Continuous action space missing required ranges"
            | _, none => .error "Continuous action space missing required ranges"
            | some spr, some str =>
              match spr.low, spr.high, str.low, str.high with
              | some slo, some shi, some tlo, some thi =>
                if slo ≥ shi then .error "Speed range low must be less than high"
                else if tlo ≥ thi then
                  .error "Steering angle range low must be less than high"
                else .ok ()
              | _, _, _, _ => .error "Invalid continuous action range format"

/-! ### Conversation context (services/bedrock/{claude,llama,nova}_handler.py)

Only the evolution of `self.conversation_context` matters for the bounded-
memory claims, so a message is modelled as its role plus opaque content and
each handler's `process` call is reduced to its effect on the context list.
`N` is `self.max_context_messages` (the configured `context_window`). -/

inductive Role where
  | user
  | assistant
deriving DecidableEq, Repr

structure Msg where
  role : Role
  content : List Char
deriving DecidableEq, Repr

/-- Python's `l[-k:]` for `k ≥ 1`: the last `min k (length l)` elements.
(For `k = 0` Python returns the whole list, but every use below is guarded
by `0 < N`.) -/
def lastN (k : Nat) (l : List Msg) : List Msg := l.drop (l.length - k)

/-- `ClaudeHandler.process`, user side: the user message is appended to
`self.conversation_context` when `self.max_context_messages > 0`. -/
def claude_append_user (N : Nat) (ctx : List Msg) (u : Msg) : List Msg :=
  if 0 < N then ctx ++ [u] else ctx

/-- `ClaudeHandler.extract_response_text`, context side: when
`self.max_context_messages > 0` the assistant message is appended and the
context is truncated to its last `2 * N` entries once it exceeds that
bound. -/
def claude_extract_response_ctx (N : Nat) (ctx : List Msg) (a : Msg) : List Msg :=
  if 0 < N then
    let c := ctx ++ [a]
    if 2 * N < c.length then lastN (2 * N) c else c
  else ctx

/-- Context effect of one full `ClaudeHandler.process` call. -/
def claude_process_ctx (N : Nat) (ctx : List Msg) (u a : Msg) : List Msg :=
  claude_extract_response_ctx N (claude_append_user N ctx u) a

/-- `LlamaHandler.process`, user side (same discipline as Claude). -/
def llama_append_user (N : Nat) (ctx : List Msg) (u : Msg) : List Msg :=
  if 0 < N then ctx ++ [u] else ctx

/-- `LlamaHandler.extract_response_text`, context side (same bound
`2 * N` as Claude). -/
def llama_extract_response_ctx (N : Nat) (ctx : List Msg) (a : Msg) : List Msg :=
  if 0 < N then
    let c := ctx ++ [a]
    if 2 * N < c.length then lastN (2 * N) c else c
  else ctx

/-- Context effect of one full `LlamaHandler.process` call. -/
def llama_process_ctx (N : Nat) (ctx : List Msg) (u a : Msg) : List Msg :=
  llama_extract_response_ctx N (llama_append_user N ctx u) a

/-- `NovaHandler.process`, user side. -/
def nova_append_user (N : Nat) (ctx : List Msg) (u : Msg) : List Msg :=
  if 0 < N then ctx ++ [u] else ctx

/-- `NovaHandler.extract_response_text`, context side: after appending the
assistant message the source truncates with
`self.conversation_context[-self.max_context_messages:]` — the last `N`
entries, not `2 * N` (the inner `if self.max_context_messages > 0` guard is
re-checked as in the source). -/
def nova_extract_response_ctx (N : Nat) (ctx : List Msg) (a : Msg) : List Msg :=
  if 0 < N then
    let c := ctx ++ [a]
    if 0 < N then lastN N c else c
  else ctx

/-- Context effect of one full `NovaHandler.process` call. -/
def nova_process_ctx (N : Nat) (ctx : List Msg) (u a : Msg) : List Msg :=
  nova_extract_response_ctx N (nova_append_user N ctx u) a

/-- Runs a sequence of `process` calls (each contributing one user and one
assistant message) against an initially cleared context. -/
def runContext (step : Nat → List Msg → Msg → Msg → List Msg) (N : Nat)
    (exchanges : List (Msg × Msg)) : List Msg :=
  exchanges.foldl (fun ctx p => step N ctx p.1 p.2) []

/-- The full message sequence a run appends, in arrival order (used to
state FIFO eviction: the retained context is always a suffix of this). -/
def allMessages (exchanges : List (Msg × Msg)) : List Msg :=
  exchanges.flatMap (fun p => [p.1, p.2])

/-! ### Dispatcher (services/bedrock/__init__.py `get_handler_for_model`)

String helpers are defined on `List Char` because the embedding must be
kernel-computable; they model Python's `str.lower` (ASCII range, which
covers all model identifiers), `str.split('/')` and the `in` substring
test. -/

/-- Python `str.lower()` on an ASCII character. -/
def asciiLowerChar (c : Char) : Char :=
  if 'A' ≤ c ∧ c ≤ 'Z' then Char.ofNat (c.toNat + 32) else c

/-- Python `str.lower()`. -/
def lowerChars (cs : List Char) : List Char := cs.map asciiLowerChar

/-- Python `str.split(sep)` for a one-character separator: always returns
at least one (possibly empty) piece, and one extra piece per occurrence of
the separator. -/
def splitOnChar (sep : Char) : List Char → List (List Char)
  | [] => [[]]
  | c :: rest =>
    let r := splitOnChar sep rest
    if c = sep then [] :: r
    else
      match r with
      | [] => [[c]]
      | h :: t => (c :: h) :: t

/-- Whether `pre` is a leading segment of `l`. -/
def beginsWith : List Char → List Char → Bool
  | [], _ => true
  | _ :: _, [] => false
  | a :: as, b :: bs => a = b && beginsWith as bs

/-- Python's substring test `needle in hay`. -/
def subOf (needle : List Char) : List Char → Bool
  | [] => needle.isEmpty
  | c :: rest => beginsWith needle (c :: rest) || subOf needle rest

/-- The four handler families constructed by `get_handler_for_model`. -/
inductive HandlerKind where
  | claude
  | mistral
  | llama
  | nova
deriving DecidableEq, Repr

/-- The exceptions `get_handler_for_model` can raise: the `IndexError`
from `model_id.split('/')[1]` when the identifier contains no `'/'`, and
the documented `ValueError` for unsupported families. -/
inductive PyError where
  | indexError
  | valueError (msg : String)
deriving DecidableEq, Repr

/-- `BedrockService.get_handler_for_model`.  Mirrors the source exactly:
`model_prefix = model_id.split('/')[1].lower()` is computed first (raising
`IndexError` when there is no `'/'`), then the families are tried in order
Claude, Mistral, Llama/Meta, Nova/Amazon with `ValueError` as the final
fallback. -/
def get_handler_for_model (model_id : String) : Except PyError HandlerKind :=
  let cs := model_id.toList
  match (splitOnChar '/' cs).get? 1 with
  | none => .error .indexError
  | some seg =>
    let model_prefix := lowerChars seg
    if subOf "anthropic".toList model_prefix ∨ subOf "claude".toList (lowerChars cs) then
      .ok .claude
    else if subOf "mistral".toList model_prefix then
      .ok .mistral
    else if subOf "meta".toList model_prefix ∨ subOf "llama".toList (lowerChars cs) then
      .ok .llama
    else if subOf "amazon".toList model_prefix ∨ subOf "nova".toList (lowerChars cs) then
      .ok .nova
    else
      .error (.valueError ("Unsupported model type: " ++ model_id))

/-! ### Cost estimator (services/pricing.py) -/

structure TokenPricing where
  prompt_rate : ℚ
  completion_rate : ℚ
deriving DecidableEq, Repr

/-- `PricingService.default_pricing`: `{prompt_rate: 0.002, completion_rate: 0.006}`. -/
def default_pricing : TokenPricing :=
  { prompt_rate := 2 / 1000, completion_rate := 6 / 1000 }

structure CostBreakdown where
  prompt_cost : ℚ
  completion_cost : ℚ
  total_cost : ℚ
deriving DecidableEq, Repr

/-- `PricingService.calculate_cost`, with `self.current_pricing` passed
explicitly. -/
def calculate_cost (current_pricing : TokenPricing)
    (prompt_tokens completion_tokens : ℕ) : CostBreakdown :=
  let prompt_cost := (prompt_tokens : ℚ) * (current_pricing.prompt_rate / 1000)
  let completion_cost := (completion_tokens : ℚ) * (current_pricing.completion_rate / 1000)
  { prompt_cost := prompt_cost,
    completion_cost := completion_cost,
    total_cost := prompt_cost + completion_cost }

/-! ### JSON values (the data `json.loads`/`json.dumps` exchange)

`Json` models the Python JSON values flowing through the extractor and the
agent.  Numbers are exact rationals; the serializer below covers the
integer-valued fragment (see `ratToChars`), and well-formedness (`wfJson`)
pins the fragment on which the embedding models `json` faithfully.
The list/field spines are mutual inductives so that all recursions stay
structural (hence kernel-computable). -/

mutual
inductive Json where
  | null
  | bool (b : Bool)
  | num (q : ℚ)
  | str (s : List Char)
  | arr (items : JsonList)
  | obj (fields : JsonFields)
inductive JsonList where
  | nil
  | cons (hd : Json) (tl : JsonList)
inductive JsonFields where
  | nil
  | cons (key : List Char) (val : Json) (tl : JsonFields)
end

/-! #### Decimal digit strings -/

/-- `true` on `'0'..'9'`. -/
def isDigitCh (c : Char) : Bool := 48 ≤ c.toNat && c.toNat ≤ 57

/-- The character for a single decimal digit (the default arm is dead:
every use is at `n % 10`). -/
def digitChar : Nat → Char
  | 0 => '0'
  | 1 => '1'
  | 2 => '2'
  | 3 => '3'
  | 4 => '4'
  | 5 => '5'
  | 6 => '6'
  | 7 => '7'
  | 8 => '8'
  | 9 => '9'
  | _ => '0'

/-- Fuel-driven little-endian accumulation of decimal digits (fuel keeps
the recursion structural; `natToChars` supplies enough). -/
def natToCharsAux : Nat → Nat → List Char → List Char
  | 0, _, acc => acc
  | fuel + 1, n, acc =>
    if n < 10 then digitChar (n % 10) :: acc
    else natToCharsAux fuel (n / 10) (digitChar (n % 10) :: acc)

/-- Decimal representation of a natural number (no leading zeros except
for `0` itself). -/
def natToChars (n : Nat) : List Char := natToCharsAux (n + 1) n []

/-- Decimal representation of an integer. -/
def intToChars (i : Int) : List Char :=
  if i < 0 then '-' :: natToChars i.natAbs else natToChars i.toNat

/-- Serialization of a JSON number.  `json.dumps` prints integers exactly;
float formatting is outside the modelled fragment, so non-integer
rationals (excluded by `wfJson`) get a placeholder `num/den` rendering. -/
def ratToChars (q : ℚ) : List Char :=
  if q.den = 1 then intToChars q.num
  else intToChars q.num ++ '/' :: natToChars q.den

/-- Specification form of the decimal digits of `n`, most significant
first (proof artefact: `natToChars` is shown equal to it). -/
def dchars (n : Nat) : List Char :=
  if _ : n < 10 then [digitChar n]
  else dchars (n / 10) ++ [digitChar (n % 10)]
decreasing_by exact Nat.div_lt_self (by omega) (by omega)

/-- Numeric value of a digit string, most significant first. -/
def digitsValAux (acc : Nat) : List Char → Nat
  | [] => acc
  | c :: rest => digitsValAux (10 * acc + (c.toNat - 48)) rest

def digitsVal (ds : List Char) : Nat := digitsValAux 0 ds

/-! #### Serializer (`json.dumps` with the default `", "`/`": "` separators) -/

mutual
def dumps : Json → List Char
  | .null => ['n', 'u', 'l', 'l']
  | .bool false => ['f', 'a', 'l', 's', 'e']
  | .bool true => ['t', 'r', 'u', 'e']
  | .num q => ratToChars q
  | .str s => '"' :: s ++ ['"']
  | .arr items => '[' :: dumpsList items ++ [']']
  | .obj fields => '{' :: dumpsFields fields ++ ['}']
def dumpsList : JsonList → List Char
  | .nil => []
  | .cons v .nil => dumps v
  | .cons v (.cons v2 tl) => dumps v ++ ',' :: ' ' :: dumpsList (.cons v2 tl)
def dumpsFields : JsonFields → List Char
  | .nil => []
  | .cons k v .nil => '"' :: k ++ '"' :: ':' :: ' ' :: dumps v
  | .cons k v (.cons k2 v2 tl) =>
    ('"' :: k ++ '"' :: ':' :: ' ' :: dumps v) ++ ',' :: ' ' :: dumpsFields (.cons k2 v2 tl)
end

/-! #### The modelled fragment

`strOkChar` admits printable ASCII without the characters whose handling
the embedding does not model: `'"'` and `'\'` (escape sequences), the
backtick (fence delimiter collisions) and the braces (the extractor's
brace scan).  `wfJson` additionally requires numbers to be integers. -/

def strOkChar (c : Char) : Bool :=
  32 ≤ c.toNat && c.toNat ≤ 126 &&
    c.toNat ≠ 34 && c.toNat ≠ 92 && c.toNat ≠ 96 && c.toNat ≠ 123 && c.toNat ≠ 125

def strOk (s : List Char) : Bool := s.all strOkChar

mutual
def wfJson : Json → Bool
  | .null => true
  | .bool _ => true
  | .num q => q.den = 1
  | .str s => strOk s
  | .arr items => wfList items
  | .obj fields => wfFields fields
def wfList : JsonList → Bool
  | .nil => true
  | .cons v tl => wfJson v && wfList tl
def wfFields : JsonFields → Bool
  | .nil => true
  | .cons k v tl => strOk k && wfJson v && wfFields tl
end

/-! `objFree v` is `true` when the value contains no JSON object anywhere
(no `'{'`/`'}'` in its serialization, given `wfJson`). -/

mutual
def objFree : Json → Bool
  | .null => true
  | .bool _ => true
  | .num _ => true
  | .str _ => true
  | .arr items => objFreeList items
  | .obj _ => false
def objFreeList : JsonList → Bool
  | .nil => true
  | .cons v tl => objFree v && objFreeList tl
end

/-- `true` when every field value is object-free. -/
def objFreeFields : JsonFields → Bool
  | .nil => true
  | .cons _ v tl => objFree v && objFreeFields tl

/-- The raw (un-fenced) serialization of `v` survives the extractor's
single-pass scan: either `v` contains no object at all, or `v` is itself
an object all of whose field values are object-free (so the first `'}'`
of its serialization is the final one). -/
def rawExtractable (v : Json) : Bool :=
  objFree v ||
    (match v with
     | .obj fields => objFreeFields fields
     | _ => false)

/-! #### Parser (`json.loads` on the modelled fragment)

Recursive-descent with explicit fuel so the recursion is structural.
Escape sequences in strings and non-integer numerals are outside the
modelled fragment (they cannot arise from `dumps` of a `wfJson` value);
on such inputs the model parser fails where `json.loads` may succeed. -/

/-- JSON whitespace accepted by `json.loads`. -/
def isJsonWs (c : Char) : Bool := c = ' ' || c = '\t' || c = '\n' || c = '\r'

def skipJsonWs (cs : List Char) : List Char := cs.dropWhile isJsonWs

/-- Splits a maximal run of digits off the front. -/
def parseDigits (cs : List Char) : Option (Nat × List Char) :=
  match cs.takeWhile isDigitCh with
  | [] => none
  | ds => some (digitsVal ds, cs.dropWhile isDigitCh)

/-- Reads a string body up to the closing `'"'`; a backslash (escape
sequence, outside the modelled fragment) is rejected. -/
def takeStringBody : List Char → Option (List Char × List Char)
  | [] => none
  | c :: rest =>
    if c = '"' then some ([], rest)
    else if c = '\\' then none
    else (takeStringBody rest).map (fun p => (c :: p.1, p.2))

/-- Parser modes: a single value, the items after `'['` (non-empty case),
or the key/value pairs after `'{'` (non-empty case). -/
inductive PMode where
  | val
  | arrItems
  | objItems

def parseF : Nat → PMode → List Char → Option (Json × List Char)
  | 0, _, _ => none
  | fuel + 1, .val, cs0 =>
    match skipJsonWs cs0 with
    | [] => none
    | c :: cs =>
      if beginsWith ['n', 'u', 'l', 'l'] (c :: cs) then some (.null, (c :: cs).drop 4)
      else if beginsWith ['t', 'r', 'u', 'e'] (c :: cs) then
        some (.bool true, (c :: cs).drop 4)
      else if beginsWith ['f', 'a', 'l', 's', 'e'] (c :: cs) then
        some (.bool false, (c :: cs).drop 5)
      else if c = '"' then
        match takeStringBody cs with
        | some (s, rest2) => some (.str s, rest2)
        | none => none
      else if c = '[' then
        match skipJsonWs cs with
        | ']' :: rest2 => some (.arr .nil, rest2)
        | _ => parseF fuel .arrItems cs
      else if c = '{' then
        match skipJsonWs cs with
        | '}' :: rest2 => some (.obj .nil, rest2)
        | _ => parseF fuel .objItems cs
      else if c = '-' then
        match parseDigits cs with
        | some (n, rest2) => some (.num (-(n : ℚ)), rest2)
        | none => none
      else if isDigitCh c then
        match parseDigits (c :: cs) with
        | some (n, rest2) => some (.num (n : ℚ), rest2)
        | none => none
      else none
  | fuel + 1, .arrItems, cs =>
    match parseF fuel .val cs with
    | some (v, rest) =>
      match skipJsonWs rest with
      | ',' :: rest2 =>
        match parseF fuel .arrItems rest2 with
        | some (.arr items, rest3) => some (.arr (.cons v items), rest3)
        | _ => none
      | ']' :: rest2 => some (.arr (.cons v .nil), rest2)
      | _ => none
    | none => none
  | fuel + 1, .objItems, cs =>
    match skipJsonWs cs with
    | '"' :: rest =>
      match takeStringBody rest with
      | some (k, rest1) =>
        match skipJsonWs rest1 with
        | ':' :: rest2 =>
          match parseF fuel .val rest2 with
          | some (v, rest3) =>
            match skipJsonWs rest3 with
            | ',' :: rest4 =>
              match parseF fuel .objItems rest4 with
              | some (.obj fs, rest5) => some (.obj (.cons k v fs), rest5)
              | _ => none
            | '}' :: rest4 => some (.obj (.cons k v .nil), rest4)
            | _ => none
          | none => none
        | _ => none
      | none => none
    | _ => none

/-- `json.loads`: parse one value and require only whitespace to remain
(`Extra data` otherwise).  The fuel `length + 1` suffices for every value
produced by `dumps` (shown by `fnV_le_dumps_length` below). -/
def loads (cs : List Char) : Option Json :=
  match parseF (cs.length + 1) .val cs with
  | some (v, rest) => if skipJsonWs rest = [] then some v else none
  | none => none

/-- "The list does not start with a character satisfying `p`" — the side
condition under which a maximal run (digits, string body, …) followed by
`rest` parses back to exactly the run. -/
def headFalse (p : Char → Bool) : List Char → Prop
  | [] => True
  | c :: _ => p c = false

/-! Fuel adequate for parsing `dumps` output (`fnV v ≤ fuel` makes
`parseF fuel .val (dumps v ++ rest)` succeed; see `rt_val`). -/

mutual
def fnV : Json → Nat
  | .null => 1
  | .bool _ => 1
  | .num _ => 1
  | .str _ => 1
  | .arr items => 1 + fnL items
  | .obj fields => 1 + fnF fields
def fnL : JsonList → Nat
  | .nil => 0
  | .cons v tl => 1 + fnV v + fnL tl
def fnF : JsonFields → Nat
  | .nil => 0
  | .cons _ v tl => 1 + fnV v + fnF tl
end

/-! ### Response extractor (utils/json_extractor.py)

`extract_json_from_llm_response` applies
`re.search(r"```(?:json)?\s*([\s\S]*?)\s*```|(\{[\s\S]*?\})", content)` and
parses the stripped capture, falling back to parsing the whole stripped
content when nothing matches; a parse failure raises `ValueError`.

The scan below models `re.search` for exactly this pattern: positions are
tried left to right; at a position the fence alternative is tried first
(three backticks, an optional `json` tag, then a lazy capture up to the
next closing fence), then the brace alternative (`'{'` up to the first
`'}'`).  Because the code strips the capture afterwards, the greedy
`\s*` borders of group 1 are absorbed into `stripChars`. -/

/-- Python `str.strip()` whitespace (also `\s` of the `re` module). -/
def isPyWs (c : Char) : Bool :=
  c = ' ' || c = '\t' || c = '\n' || c = '\r' || c = '\x0b' || c = '\x0c'

/-- Python `str.strip()`. -/
def stripChars (l : List Char) : List Char :=
  ((l.dropWhile isPyWs).reverse.dropWhile isPyWs).reverse

/-- The backtick character (`` ` ``). -/
def btick : Char := Char.ofNat 96

/-- Whether the list starts with three backticks. -/
def isFenceStart : List Char → Bool
  | c1 :: c2 :: c3 :: _ => c1 = btick && c2 = btick && c3 = btick
  | _ => false

/-- Drops the optional `json` language tag right after an opening fence. -/
def dropJsonTag (cs : List Char) : List Char :=
  if beginsWith ['j', 's', 'o', 'n'] cs then cs.drop 4 else cs

/-- Splits at the first closing fence: returns the content before the
first occurrence of three backticks and the remainder after them. -/
def findFence : List Char → Option (List Char × List Char)
  | [] => none
  | c :: rest =>
    if isFenceStart (c :: rest) then some ([], (c :: rest).drop 3)
    else (findFence rest).map (fun p => (c :: p.1, p.2))

/-- Splits at the first `'}'` (the lazy `\{[\s\S]*?\}` body). -/
def findCloseBrace : List Char → Option (List Char × List Char)
  | [] => none
  | c :: rest =>
    if c = '}' then some ([], rest)
    else (findCloseBrace rest).map (fun p => (c :: p.1, p.2))

/-- One attempt of the alternation at a fixed position: fence first, then
brace; `none` means the regex engine moves one character right. -/
def attemptAt (cs : List Char) : Option (List Char) :=
  if isFenceStart cs then
    match findFence (dropJsonTag (cs.drop 3)) with
    | some (content, _) => some (stripChars content)
    | none => none
  else
    match cs with
    | '{' :: rest =>
      match findCloseBrace rest with
      | some (inner, _) => some (stripChars ('{' :: (inner ++ ['}'])))
      | none => none
    | _ => none

/-- The left-to-right scan of `re.search`, returning the stripped capture
of the first successful match. -/
def scanJson : List Char → Option (List Char)
  | [] => none
  | c :: rest =>
    match attemptAt (c :: rest) with
    | some captured => some captured
    | none => scanJson rest

/-- `extract_json_from_llm_response(content, logger, model_name)`.  A
successful match is parsed as JSON; with no match the entire stripped
content is parsed; any `json.JSONDecodeError` becomes the
`ValueError("No valid JSON found in … response")` of the source. -/
def extract_json_from_llm_response (content : List Char) (model_name : String) :
    Except String Json :=
  match scanJson content with
  | some json_string =>
    match loads json_string with
    | some v => .ok v
    | none => .error ("No valid JSON found in " ++ model_name ++ " response")
  | none =>
    match loads (stripChars content) with
    | some v => .ok v
    | none => .error ("No valid JSON found in " ++ model_name ++ " response")

/-- Wraps a serialization in a fenced code block with a `json` tag. -/
def fenceWrapJson (s : List Char) : List Char :=
  "```json\n".toList ++ s ++ "\n```".toList

/-- Wraps a serialization in a fenced code block without a language tag. -/
def fenceWrap (s : List Char) : List Char :=
  "```\n".toList ++ s ++ "\n```".toList

/-! ### Orchestrator (agent.py)

`process_image` is embedded as a function of the outcome of its two
effectful collaborators: reading the image file (`_image_to_base64`) and
the full model round trip (`self.bedrock_service.process`, whose success
value is the JSON the vendor handler extracted).  Python dict/`float`
primitives on `Json` values are modelled with explicit `TypeError`/
`AttributeError` failures, mirroring which operations raise on which
shapes. -/

def skey : List Char := "steering_angle".toList
def vkey : List Char := "speed".toList
def fkey : List Char := "fallback".toList
def ekey : List Char := "error".toList

/-- Key membership in an object's field list. -/
def fieldsHasKey (k : List Char) : JsonFields → Bool
  | .nil => false
  | .cons k2 _ tl => k2 = k || fieldsHasKey k tl

/-- Value lookup (first occurrence, like a Python dict). -/
def fieldsGet (k : List Char) : JsonFields → Option Json
  | .nil => none
  | .cons k2 v tl => if k2 = k then some v else fieldsGet k tl

/-- Python dict assignment `d[k] = v`: replaces in place when the key
exists, otherwise appends (insertion order preserved). -/
def fieldsSet (k : List Char) (v : Json) : JsonFields → JsonFields
  | .nil => .cons k v .nil
  | .cons k2 v2 tl => if k2 = k then .cons k2 v tl else .cons k2 v2 (fieldsSet k v tl)

/-- String membership in a JSON array (Python `'k' in list` compares the
string against each element; it equals only `str` elements). -/
def listHasStr (k : List Char) : JsonList → Bool
  | .nil => false
  | .cons (.str s) tl => s = k || listHasStr k tl
  | .cons _ tl => listHasStr k tl

/-- Python `key in value`: key lookup on dicts, membership on lists,
substring test on strings, `TypeError` otherwise. -/
def pyContains (k : List Char) : Json → Except (List Char) Bool
  | .obj fs => .ok (fieldsHasKey k fs)
  | .arr items => .ok (listHasStr k items)
  | .str s => .ok (subOf k s)
  | _ => .error "TypeError: argument is not iterable".toList

/-- Python `value[k] = v`: only dicts support item assignment. -/
def pySetItem (k : List Char) (v : Json) : Json → Except (List Char) Json
  | .obj fs => .ok (.obj (fieldsSet k v fs))
  | _ => .error "TypeError: object does not support item assignment".toList

/-- Python `value.get(k, default)`: a dict method (`AttributeError` on
anything else). -/
def pyDictGet (k : List Char) (default : Json) : Json → Except (List Char) Json
  | .obj fs => .ok ((fieldsGet k fs).getD default)
  | _ => .error "AttributeError: object has no attribute get".toList

/-- Python `value.items()`. -/
def pyItems : Json → Except (List Char) JsonFields
  | .obj fs => .ok fs
  | _ => .error "AttributeError: object has no attribute items".toList

/-- An unsigned decimal numeral with an optional fractional part, as
accepted by Python `float()` (exponents/`inf`/`nan` are outside the
modelled fragment; the uses under study only need failure on
non-numeric text). -/
def parseUnsignedFloat (cs : List Char) : Option ℚ :=
  match cs.takeWhile isDigitCh, cs.dropWhile isDigitCh with
  | ds, [] => if ds.isEmpty then none else some ((digitsVal ds : ℚ))
  | ds, '.' :: rest =>
    match rest.takeWhile isDigitCh, rest.dropWhile isDigitCh with
    | fs, [] =>
      if ds.isEmpty && fs.isEmpty then none
      else some ((digitsVal ds : ℚ) + (digitsVal fs : ℚ) / (10 : ℚ) ^ fs.length)
    | _, _ => none
  | _, _ => none

/-- Python `float(str)`: optional sign around `parseUnsignedFloat`,
after stripping whitespace. -/
def parseFloatChars (cs : List Char) : Option ℚ :=
  match stripChars cs with
  | '-' :: rest => (parseUnsignedFloat rest).map Neg.neg
  | '+' :: rest => parseUnsignedFloat rest
  | cs' => parseUnsignedFloat cs'

/-- Python `float(value)`: numbers and booleans convert, strings are
parsed, everything else raises `TypeError`. -/
def pyFloat : Json → Except (List Char) ℚ
  | .num q => .ok q
  | .bool b => .ok (if b then 1 else 0)
  | .str s =>
    match parseFloatChars s with
    | some q => .ok q
    | none => .error "ValueError: could not convert string to float".toList
  | _ => .error "TypeError: float() argument must be a string or a real number".toList

/-- The preservation loop of `_normalize_action`: every key of the
original action that is neither already in `normalized` nor one of
`steering_angle`/`speed` is copied over. -/
def preserveExtras : JsonFields → JsonFields → JsonFields
  | .nil, normalized => normalized
  | .cons k v tl, normalized =>
    if ¬ fieldsHasKey k normalized ∧ k ≠ skey ∧ k ≠ vkey then
      preserveExtras tl (fieldsSet k v normalized)
    else
      preserveExtras tl normalized

/-- The body of `LLMAgent._normalize_action`'s `try` block: read both
values with defaults, convert with `float`, normalize against the loaded
action space, then re-attach extra fields. -/
def normalizeComp (metadata : Option ActionSpace) (action : Json) :
    Except (List Char) Json := do
  let sRaw ← pyDictGet skey (.num 0) action
  let vRaw ← pyDictGet vkey (.num 1) action
  let steering_angle ← pyFloat sRaw
  let speed ← pyFloat vRaw
  let normalized ←
    match normalize_action metadata steering_angle speed with
    | .ok a => Except.ok a
    | .error e => Except.error e.toList
  let items ← pyItems action
  let base : JsonFields :=
    .cons skey (.num normalized.steering_angle) (.cons vkey (.num normalized.speed) .nil)
  pure (.obj (preserveExtras items base))

/-- `LLMAgent._normalize_action`: any exception inside the `try` block is
caught and the original action dict is returned unchanged. -/
def agent_normalize_action (metadata : Option ActionSpace) (action : Json) : Json :=
  match normalizeComp metadata action with
  | .ok r => r
  | .error _ => action

/-- The inner `try` block of `LLMAgent.process_image`: take the parsed
action from the model round trip, substitute neutral defaults (plus
`fallback`/`error` tags) for missing required fields, then normalize. -/
def processImageInner (metadata : Option ActionSpace)
    (proc : Except (List Char) Json) : Except (List Char) Json := do
  let action ← proc
  let hasS ← pyContains skey action
  let hasV ← pyContains vkey action
  let action ←
    if ¬ hasS ∨ ¬ hasV then do
      let a1 ← if ¬ hasS then pySetItem skey (.num 0) action else pure action
      let a2 ← if ¬ hasV then pySetItem vkey (.num 1) a1 else pure a1
      let a3 ← pySetItem fkey (.bool true) a2
      pySetItem ekey (.str "Missing required parameters in response".toList) a3
    else
      pure action
  pure (agent_normalize_action metadata action)

/-- `LLMAgent.process_image`, as a function of the outcome of reading the
image file and of the model round trip.  The inner `except` turns any
error into the fallback action with `fallback=true` and a diagnostic
`error`; the outer `except` (image-file errors and anything outside the
inner `try`) returns plain `{"steering_angle": 0.0, "speed": 1.0}`. -/
def process_image (metadata : Option ActionSpace)
    (imageRead : Except (List Char) Unit)
    (proc : Except (List Char) Json) : Json :=
  match imageRead with
  | .error _ => .obj (.cons skey (.num 0) (.cons vkey (.num 1) .nil))
  | .ok _ =>
    match processImageInner metadata proc with
    | .ok r => r
    | .error e =>
      .obj (.cons skey (.num 0) (.cons vkey (.num 1)
        (.cons fkey (.bool true)
          (.cons ekey (.str ("Failed to process: ".toList ++ e)) .nil))))

/-! ### Concrete instances used by witnesses and counterexamples -/

/-- A metadata object that passes validation with an empty discrete
action list. -/
def mdEmptyDiscrete : RawMetadata :=
  { action_space := some (.list []),
    sensor_is_list := true,
    neural_network := some "DEEP_CONVOLUTIONAL_NETWORK",
    training_algorithm := some "clipped_ppo",
    action_space_type := none,
    llm_config := none }

/-- A metadata object declaring the LLM network without an `llm_config`. -/
def mdLLMNoConfig : RawMetadata :=
  { action_space := some (.list []),
    sensor_is_list := true,
    neural_network := some "LLM",
    training_algorithm := none,
    action_space_type := none,
    llm_config := none }

/-- A continuous action space with steering range `[-30, 30]` and speed
range `[1, 4]`. -/
def sampleContinuous : ContinuousActionSpace := ⟨⟨-30, 30⟩, ⟨1, 4⟩⟩

/-- Sample messages for the conversation-context runs. -/
def msgU1 : Msg := ⟨.user, "u1".toList⟩
def msgA1 : Msg := ⟨.assistant, "a1".toList⟩
def msgU2 : Msg := ⟨.user, "u2".toList⟩
def msgA2 : Msg := ⟨.assistant, "a2".toList⟩

/-- A flat JSON object `{"a": 1}`. -/
def sampleFlatObj : Json := .obj (.cons "a".toList (.num 1) .nil)

/-- A nested JSON object, `{"a": {"b": 1}}`. -/
def sampleNestedObj : Json :=
  .obj (.cons "a".toList (.obj (.cons "b".toList (.num 1) .nil)) .nil)

/-- A parsed action whose steering value is the non-numeric string
`"full left"` (so `float()` raises inside `_normalize_action`). -/
def sampleBadAction : Json :=
  .obj (.cons skey (.str "full left".toList) (.cons vkey (.num 2) .nil))

/-! ## Theorems -/

/-- C8: `calculate_cost` is pure linear arithmetic against the current
pricing — each cost is `tokens × rate / 1000` and `total_cost` is their
sum — and under the default pricing `{prompt_rate=0.002,
completion_rate=0.006}`, `calculate_cost(1000, 1000)` yields
`{prompt_cost=0.002, completion_cost=0.006, total_cost=0.008}`
(`1/500`, `3/500`, `1/125` as exact rationals). -/
theorem C8_calculate_cost_linear :
    (∀ (pricing : TokenPricing) (p c : ℕ),
      calculate_cost pricing p c =
        { prompt_cost := p * pricing.prompt_rate / 1000,
          completion_cost := c * pricing.completion_rate / 1000,
          total_cost := p * pricing.prompt_rate / 1000 +
            c * pricing.completion_rate / 1000 }) ∧
    calculate_cost default_pricing 1000 1000 =
      { prompt_cost := 1 / 500, completion_cost := 3 / 500, total_cost := 1 / 125 } := by
  constructor
  · intro pricing p c
    simp [calculate_cost, mul_div_assoc]
  · norm_num [calculate_cost, default_pricing]

/-- C9: a metadata object whose `neural_network` is `"LLM"` but which has
no `llm_config` never passes `_validate_metadata`: loading always fails
with a `ValidationError` (`ValueError` in the source). -/
theorem C9_llm_requires_config :
    ∀ md : RawMetadata, md.neural_network = some "LLM" → md.llm_config = none →
      ∃ msg, validate_metadata md = .error msg := by
  intro md h1 h2
  obtain ⟨as, sok, nn, ta, ast, lc⟩ := md
  simp only at h1 h2
  subst h1; subst h2
  cases as with
  | none => exact ⟨_, rfl⟩
  | some rawSpace =>
    cases sok with
    | false => exact ⟨_, rfl⟩
    | true => exact ⟨_, rfl⟩

/-- C9 witness: the concrete LLM metadata without `llm_config` is
rejected. -/
theorem C9_llm_requires_config_witness :
    ∃ msg, validate_metadata mdLLMNoConfig = .error msg :=
  C9_llm_requires_config mdLLMNoConfig rfl rfl

/-! ### Conversation-context lemmas (towards C2) -/

theorem suffix_append_same {α : Type} {l₁ l₂ l₃ : List α} (h : l₁ <:+ l₂) :
    l₁ ++ l₃ <:+ l₂ ++ l₃ := by
  obtain ⟨t, rfl⟩ := h
  exact ⟨t, by simp⟩

theorem runContext_append (step : Nat → List Msg → Msg → Msg → List Msg) (N : Nat)
    (ps : List (Msg × Msg)) (p : Msg × Msg) :
    runContext step N (ps ++ [p]) = step N (runContext step N ps) p.1 p.2 := by
  simp [runContext, List.foldl_append]

theorem allMessages_append (ps : List (Msg × Msg)) (p : Msg × Msg) :
    allMessages (ps ++ [p]) = allMessages ps ++ [p.1, p.2] := by
  simp [allMessages]

theorem claude_step_length (N : Nat) (hN : 0 < N) (ctx : List Msg) (u a : Msg) :
    (claude_process_ctx N ctx u a).length = min (ctx.length + 2) (2 * N) := by
  simp only [claude_process_ctx, claude_append_user, claude_extract_response_ctx,
    if_pos hN]
  split
  · simp only [lastN, List.length_drop, List.length_append, List.length_cons,
      List.length_nil] at *
    omega
  · simp only [List.length_append, List.length_cons, List.length_nil] at *
    omega

theorem nova_step_length (N : Nat) (hN : 0 < N) (ctx : List Msg) (u a : Msg) :
    (nova_process_ctx N ctx u a).length = min (ctx.length + 2) N := by
  simp only [nova_process_ctx, nova_append_user, nova_extract_response_ctx,
    if_pos hN]
  simp only [lastN, List.length_drop, List.length_append, List.length_cons,
    List.length_nil]
  omega

theorem claude_step_suffix (N : Nat) (hN : 0 < N) (ctx : List Msg) (u a : Msg) :
    claude_process_ctx N ctx u a <:+ ctx ++ [u, a] := by
  simp only [claude_process_ctx, claude_append_user, claude_extract_response_ctx,
    if_pos hN]
  have hctx : (ctx ++ [u]) ++ [a] = ctx ++ [u, a] := by simp
  split
  · rw [hctx]
    exact List.drop_suffix _ _
  · rw [hctx]

theorem nova_step_suffix (N : Nat) (hN : 0 < N) (ctx : List Msg) (u a : Msg) :
    nova_process_ctx N ctx u a <:+ ctx ++ [u, a] := by
  simp only [nova_process_ctx, nova_append_user, nova_extract_response_ctx,
    if_pos hN]
  have hctx : (ctx ++ [u]) ++ [a] = ctx ++ [u, a] := by simp
  rw [hctx]
  exact List.drop_suffix _ _

theorem claude_run_length (N : Nat) (hN : 0 < N) (ps : List (Msg × Msg)) :
    (runContext claude_process_ctx N ps).length = min (2 * ps.length) (2 * N) := by
  induction ps using List.reverseRecOn with
  | nil => simp [runContext]
  | append_singleton l p ih =>
    rw [runContext_append, claude_step_length N hN, ih]
    simp only [List.length_append, List.length_cons, List.length_nil]
    omega

theorem nova_run_length (N : Nat) (hN : 0 < N) (ps : List (Msg × Msg)) :
    (runContext nova_process_ctx N ps).length = min (2 * ps.length) N := by
  induction ps using List.reverseRecOn with
  | nil => simp [runContext]
  | append_singleton l p ih =>
    rw [runContext_append, nova_step_length N hN, ih]
    simp only [List.length_append, List.length_cons, List.length_nil]
    omega

theorem claude_run_suffix (N : Nat) (hN : 0 < N) (ps : List (Msg × Msg)) :
    runContext claude_process_ctx N ps <:+ allMessages ps := by
  induction ps using List.reverseRecOn with
  | nil => simp [runContext, allMessages]
  | append_singleton l p ih =>
    rw [runContext_append, allMessages_append]
    exact (claude_step_suffix N hN _ p.1 p.2).trans (suffix_append_same ih)

theorem nova_run_suffix (N : Nat) (hN : 0 < N) (ps : List (Msg × Msg)) :
    runContext nova_process_ctx N ps <:+ allMessages ps := by
  induction ps using List.reverseRecOn with
  | nil => simp [runContext, allMessages]
  | append_singleton l p ih =>
    rw [runContext_append, allMessages_append]
    exact (nova_step_suffix N hN _ p.1 p.2).trans (suffix_append_same ih)

theorem claude_run_zero (ps : List (Msg × Msg)) :
    runContext claude_process_ctx 0 ps = [] := by
  have h : ∀ (qs : List (Msg × Msg)) (init : List Msg),
      List.foldl (fun ctx p => claude_process_ctx 0 ctx p.1 p.2) init qs = init := by
    intro qs
    induction qs with
    | nil => intro init; rfl
    | cons q qs ih =>
      intro init
      have hstep : claude_process_ctx 0 init q.1 q.2 = init := by
        simp [claude_process_ctx, claude_append_user, claude_extract_response_ctx]
      simp [List.foldl_cons, hstep, ih]
  exact h ps []

theorem nova_run_zero (ps : List (Msg × Msg)) :
    runContext nova_process_ctx 0 ps = [] := by
  have h : ∀ (qs : List (Msg × Msg)) (init : List Msg),
      List.foldl (fun ctx p => nova_process_ctx 0 ctx p.1 p.2) init qs = init := by
    intro qs
    induction qs with
    | nil => intro init; rfl
    | cons q qs ih =>
      intro init
      have hstep : nova_process_ctx 0 init q.1 q.2 = init := by
        simp [nova_process_ctx, nova_append_user, nova_extract_response_ctx]
      simp [List.foldl_cons, hstep, ih]
  exact h ps []

/-- C2 counterexample: with Nova and `context_window N = 1`, after two
`process` calls (`2N + 2 = 4` messages appended) the retained context
holds `1` entry, not the claimed `2N = 2` — Nova truncates to the last
`N` entries, not `2N`. -/
theorem C2_context_bound_counterexample :
    (runContext nova_process_ctx 1 [(msgU1, msgA1), (msgU2, msgA2)]).length ≠ 2 * 1 ∧
    runContext nova_process_ctx 1 [(msgU1, msgA1), (msgU2, msgA2)] = [msgA2] := by
  exact ⟨by decide, by rfl⟩

/-- C2 (amended): for every `N > 0` and every sequence of `process`
calls, the Claude and Llama contexts retain exactly
`min (2·calls) (2·N)` entries — hence at most `2N`, and exactly `2N` once
`2N + 2` messages have been appended — while Nova retains
`min (2·calls) N` entries (at most `N`, exactly `N` after the same
point).  All three evict oldest-first (the retained context is a suffix
of the full appended sequence), and with `N = 0` the context never
grows. -/
theorem C2_context_bound :
    ∀ (N : Nat) (exchanges : List (Msg × Msg)), 0 < N →
      ((runContext claude_process_ctx N exchanges).length =
          min (2 * exchanges.length) (2 * N) ∧
        (runContext llama_process_ctx N exchanges).length =
          min (2 * exchanges.length) (2 * N) ∧
        (runContext nova_process_ctx N exchanges).length =
          min (2 * exchanges.length) N) ∧
      ((runContext claude_process_ctx N exchanges).length ≤ 2 * N ∧
        (runContext llama_process_ctx N exchanges).length ≤ 2 * N ∧
        (runContext nova_process_ctx N exchanges).length ≤ N) ∧
      (runContext claude_process_ctx N exchanges <:+ allMessages exchanges ∧
        runContext llama_process_ctx N exchanges <:+ allMessages exchanges ∧
        runContext nova_process_ctx N exchanges <:+ allMessages exchanges) ∧
      (runContext claude_process_ctx 0 exchanges = [] ∧
        runContext llama_process_ctx 0 exchanges = [] ∧
        runContext nova_process_ctx 0 exchanges = []) := by
  intro N exchanges hN
  have hcl := claude_run_length N hN exchanges
  have hll : (runContext llama_process_ctx N exchanges).length =
      min (2 * exchanges.length) (2 * N) := claude_run_length N hN exchanges
  have hnl := nova_run_length N hN exchanges
  refine ⟨⟨hcl, hll, hnl⟩, ⟨?_, ?_, ?_⟩, ⟨?_, ?_, ?_⟩, ?_, ?_, ?_⟩
  · omega
  · omega
  · omega
  · exact claude_run_suffix N hN exchanges
  · exact claude_run_suffix N hN exchanges
  · exact nova_run_suffix N hN exchanges
  · exact claude_run_zero exchanges
  · exact claude_run_zero exchanges
  · exact nova_run_zero exchanges

/-- C2 witness: the amended bound at `N = 1` with two concrete
exchanges. -/
theorem C2_context_bound_witness :
    ((runContext claude_process_ctx 1 [(msgU1, msgA1), (msgU2, msgA2)]).length =
        min (2 * 2) (2 * 1) ∧
      (runContext llama_process_ctx 1 [(msgU1, msgA1), (msgU2, msgA2)]).length =
        min (2 * 2) (2 * 1) ∧
      (runContext nova_process_ctx 1 [(msgU1, msgA1), (msgU2, msgA2)]).length =
        min (2 * 2) 1) ∧
    ((runContext claude_process_ctx 1 [(msgU1, msgA1), (msgU2, msgA2)]).length ≤ 2 * 1 ∧
      (runContext llama_process_ctx 1 [(msgU1, msgA1), (msgU2, msgA2)]).length ≤ 2 * 1 ∧
      (runContext nova_process_ctx 1 [(msgU1, msgA1), (msgU2, msgA2)]).length ≤ 1) ∧
    (runContext claude_process_ctx 1 [(msgU1, msgA1), (msgU2, msgA2)] <:+
        allMessages [(msgU1, msgA1), (msgU2, msgA2)] ∧
      runContext llama_process_ctx 1 [(msgU1, msgA1), (msgU2, msgA2)] <:+
        allMessages [(msgU1, msgA1), (msgU2, msgA2)] ∧
      runContext nova_process_ctx 1 [(msgU1, msgA1), (msgU2, msgA2)] <:+
        allMessages [(msgU1, msgA1), (msgU2, msgA2)]) ∧
    (runContext claude_process_ctx 0 [(msgU1, msgA1), (msgU2, msgA2)] = [] ∧
      runContext llama_process_ctx 0 [(msgU1, msgA1), (msgU2, msgA2)] = [] ∧
      runContext nova_process_ctx 0 [(msgU1, msgA1), (msgU2, msgA2)] = []) := by
  have h := C2_context_bound 1 [(msgU1, msgA1), (msgU2, msgA2)] (by decide)
  simpa using h

/-- C3 (code bug): resolution reads `model_id.split('/')[1]` before any
family check, so the repository's own default identifier
`anthropic.claude-3-sonnet-20240229-v1:0` — which contains the Claude
marker but no `'/'` — raises `IndexError` instead of being classified
(and instead of the documented `ValueError`). -/
theorem C3_resolution_index_error :
    get_handler_for_model "anthropic.claude-3-sonnet-20240229-v1:0" =
      .error .indexError ∧
    subOf "claude".toList
      (lowerChars "anthropic.claude-3-sonnet-20240229-v1:0".toList) = true := by
  exact ⟨rfl, rfl⟩

/-! ### Nearest-neighbour lemmas (towards C6, C7)

`find_closest_discrete_action` compares `math.sqrt` of the squared
distances; `sqrt_lt_sqrt_iff_of_nonneg` records that comparing the
squares (as `fcLoop` does in the embedding) is equivalent. -/

theorem sqrt_lt_sqrt_iff_of_nonneg {a b : ℚ} (ha : 0 ≤ a) :
    Real.sqrt (a : ℝ) < Real.sqrt (b : ℝ) ↔ a < b := by
  rw [Real.sqrt_lt_sqrt_iff (by exact_mod_cast ha)]
  exact_mod_cast Iff.rfl

theorem distSq_nonneg (a : DiscreteAction) (s v : ℚ) : 0 ≤ distSq a s v :=
  add_nonneg (mul_self_nonneg _) (mul_self_nonneg _)

theorem distSq_self (s v : ℚ) : distSq ⟨s, v⟩ s v = 0 := by
  simp [distSq]

theorem fcLoop_mem (s v : ℚ) :
    ∀ (l : List DiscreteAction) (best : DiscreteAction) (minD : Option ℚ),
      fcLoop s v l best minD = best ∨ fcLoop s v l best minD ∈ l := by
  intro l
  induction l with
  | nil => intro best minD; exact Or.inl rfl
  | cons a rest ih =>
    intro best minD
    simp only [fcLoop]
    split
    · rcases ih a (some (distSq a s v)) with h | h
      · rw [h]; exact Or.inr (List.mem_cons_self a rest)
      · exact Or.inr (List.mem_cons_of_mem a h)
    · rcases ih best minD with h | h
      · exact Or.inl h
      · exact Or.inr (List.mem_cons_of_mem a h)

theorem fcLoop_no_improve (s v : ℚ) :
    ∀ (l : List DiscreteAction) (best : DiscreteAction) (m : ℚ),
      (∀ b ∈ l, ¬ (distSq b s v < m)) → fcLoop s v l best (some m) = best := by
  intro l
  induction l with
  | nil => intro best m _; rfl
  | cons a rest ih =>
    intro best m h
    simp only [fcLoop]
    rw [if_neg, ih best m (fun b hb => h b (List.mem_cons_of_mem a hb))]
    simp only [decide_eq_true_eq]
    exact h a (List.mem_cons_self a rest)

theorem fcLoop_min (s v : ℚ) :
    ∀ (l : List DiscreteAction) (best : DiscreteAction),
      distSq (fcLoop s v l best (some (distSq best s v))) s v ≤ distSq best s v ∧
      ∀ b ∈ l, distSq (fcLoop s v l best (some (distSq best s v))) s v ≤ distSq b s v := by
  intro l
  induction l with
  | nil => intro best; exact ⟨le_refl _, by simp⟩
  | cons a rest ih =>
    intro best
    simp only [fcLoop]
    by_cases h : distSq a s v < distSq best s v
    · rw [if_pos (by simpa using h)]
      rcases ih a with ⟨h1, h2⟩
      refine ⟨h1.trans h.le, ?_⟩
      intro b hb
      rcases List.mem_cons.mp hb with rfl | hb
      · exact h1
      · exact h2 b hb
    · rw [if_neg (by simpa using h)]
      rcases ih best with ⟨h1, h2⟩
      refine ⟨h1, ?_⟩
      intro b hb
      rcases List.mem_cons.mp hb with rfl | hb
      · exact h1.trans (not_lt.mp h)
      · exact h2 b hb

theorem fcLoop_earliest (s v : ℚ) :
    ∀ (l₁ : List DiscreteAction) (best a : DiscreteAction) (l₂ : List DiscreteAction)
      (m : ℚ),
      distSq a s v < m →
      (∀ b ∈ l₁, distSq a s v < distSq b s v) →
      (∀ b ∈ l₂, distSq a s v ≤ distSq b s v) →
      fcLoop s v (l₁ ++ a :: l₂) best (some m) = a := by
  intro l₁
  induction l₁ with
  | nil =>
    intro best a l₂ m hm _ hl₂
    simp only [List.nil_append, fcLoop]
    rw [if_pos (by simpa using hm)]
    exact fcLoop_no_improve s v l₂ a (distSq a s v)
      (fun b hb => not_lt.mpr (hl₂ b hb))
  | cons c l₁' ih =>
    intro best a l₂ m hm hl₁ hl₂
    simp only [List.cons_append, fcLoop]
    by_cases h : distSq c s v < m
    · rw [if_pos (by simpa using h)]
      exact ih c a l₂ (distSq c s v) (hl₁ c (List.mem_cons_self c l₁'))
        (fun b hb => hl₁ b (List.mem_cons_of_mem c hb)) hl₂
    · rw [if_neg (by simpa using h)]
      exact ih best a l₂ m hm
        (fun b hb => hl₁ b (List.mem_cons_of_mem c hb)) hl₂

theorem find_closest_unfold (s v : ℚ) (a0 : DiscreteAction) (rest : List DiscreteAction) :
    find_closest_discrete_action (a0 :: rest) s v =
      some (fcLoop s v rest a0 (some (distSq a0 s v))) := by
  simp [find_closest_discrete_action, fcLoop]

/-- C5: for every continuous action space with `low < high` on both axes,
`normalize_action` succeeds and the returned pair lies within the declared
ranges on each axis, for arbitrary rational inputs. -/
theorem C5_continuous_normalize_in_range :
    ∀ (sp : ContinuousActionSpace) (s v : ℚ),
      sp.steering_angle.low < sp.steering_angle.high →
      sp.speed.low < sp.speed.high →
      ∃ a : DiscreteAction,
        normalize_action (some (.continuous sp)) s v = .ok a ∧
        sp.steering_angle.low ≤ a.steering_angle ∧
        a.steering_angle ≤ sp.steering_angle.high ∧
        sp.speed.low ≤ a.speed ∧ a.speed ≤ sp.speed.high := by
  intro sp s v hst hsp
  refine ⟨_, rfl, ?_, ?_, ?_, ?_⟩
  · exact le_max_left _ _
  · exact max_le hst.le (min_le_left _ _)
  · exact le_max_left _ _
  · exact max_le hsp.le (min_le_left _ _)

/-- C5 witness: the sample space clamps the out-of-range input
`(100, -5)` into range. -/
theorem C5_continuous_normalize_in_range_witness :
    ∃ a : DiscreteAction,
      normalize_action (some (.continuous sampleContinuous)) 100 (-5) = .ok a ∧
      sampleContinuous.steering_angle.low ≤ a.steering_angle ∧
      a.steering_angle ≤ sampleContinuous.steering_angle.high ∧
      sampleContinuous.speed.low ≤ a.speed ∧ a.speed ≤ sampleContinuous.speed.high :=
  C5_continuous_normalize_in_range sampleContinuous 100 (-5) (by decide) (by decide)

/-- C6 counterexample: an empty discrete action list passes
`_validate_metadata` (so it is "validly loaded"), yet `normalize_action`
raises (`IndexError` at `actions[0]`) instead of returning a member. -/
theorem C6_discrete_normalize_counterexample :
    validate_metadata mdEmptyDiscrete = .ok () ∧
    ∃ msg, normalize_action (some (.discrete [])) 0 0 = .error msg :=
  ⟨rfl, ⟨_, rfl⟩⟩

/-- C6 (amended): for every *non-empty* discrete action space,
`normalize_action` returns a member of the declared list, and whenever
the input pair exactly equals a declared action that exact pair is
returned unchanged.  (The empty list passes validation but makes
`normalize_action` raise — see the counterexample.) -/
theorem C6_discrete_normalize_membership :
    ∀ (actions : List DiscreteAction) (s v : ℚ), actions ≠ [] →
      ∃ a, normalize_action (some (.discrete actions)) s v = .ok a ∧ a ∈ actions ∧
        ((⟨s, v⟩ : DiscreteAction) ∈ actions → a = ⟨s, v⟩) := by
  intro actions s v hne
  match actions with
  | a0 :: rest =>
    refine ⟨fcLoop s v rest a0 (some (distSq a0 s v)), ?_, ?_, ?_⟩
    · simp only [normalize_action, find_closest_unfold]
    · rcases fcLoop_mem s v rest a0 (some (distSq a0 s v)) with h | h
      · rw [h]; exact List.mem_cons_self a0 rest
      · exact List.mem_cons_of_mem a0 h
    · intro hmem
      rcases fcLoop_min s v rest a0 with ⟨h1, h2⟩
      have hle : distSq (fcLoop s v rest a0 (some (distSq a0 s v))) s v ≤ 0 := by
        rcases List.mem_cons.mp hmem with heq | hmem'
        · rw [← heq] at h1 ⊢
          simpa [distSq_self] using h1
        · simpa [distSq_self] using h2 _ hmem'
      have hzero : distSq (fcLoop s v rest a0 (some (distSq a0 s v))) s v = 0 :=
        le_antisymm hle (distSq_nonneg _ s v)
      generalize hgen : fcLoop s v rest a0 (some (distSq a0 s v)) = r at hzero ⊢
      obtain ⟨rs, rv⟩ := r
      simp only [distSq] at hzero
      have hx : (rs - s) * (rs - s) = 0 := by
        nlinarith [mul_self_nonneg (rs - s), mul_self_nonneg (rv - v)]
      have hy : (rv - v) * (rv - v) = 0 := by
        nlinarith [mul_self_nonneg (rs - s), mul_self_nonneg (rv - v)]
      have hs : rs = s := sub_eq_zero.mp (mul_self_eq_zero.mp hx)
      have hv : rv = v := sub_eq_zero.mp (mul_self_eq_zero.mp hy)
      rw [hs, hv]

/-- C6 witness: in the space `[(0,1), (5,2)]` the exact input `(5,2)` is
returned unchanged. -/
theorem C6_discrete_normalize_membership_witness :
    ∃ a, normalize_action (some (.discrete [⟨0, 1⟩, ⟨5, 2⟩])) 5 2 = .ok a ∧
      a ∈ [(⟨0, 1⟩ : DiscreteAction), ⟨5, 2⟩] ∧
      ((⟨5, 2⟩ : DiscreteAction) ∈ [(⟨0, 1⟩ : DiscreteAction), ⟨5, 2⟩] → a = ⟨5, 2⟩) :=
  C6_discrete_normalize_membership [⟨0, 1⟩, ⟨5, 2⟩] 5 2 (by simp)

/-- C7: when the action at position `|l₁|` attains the minimal (squared)
Euclidean distance over the whole list and every earlier action is
strictly farther, `normalize_action` returns exactly that earliest
minimizer — in particular among equidistant actions the one declared
first wins. -/
theorem C7_tie_break_earliest :
    ∀ (l₁ : List DiscreteAction) (a : DiscreteAction) (l₂ : List DiscreteAction)
      (s v : ℚ),
      (∀ b ∈ l₁ ++ a :: l₂, distSq a s v ≤ distSq b s v) →
      (∀ b ∈ l₁, distSq a s v < distSq b s v) →
      normalize_action (some (.discrete (l₁ ++ a :: l₂))) s v = .ok a := by
  intro l₁ a l₂ s v hmin hstrict
  have hfc : find_closest_discrete_action (l₁ ++ a :: l₂) s v = some a := by
    match l₁, hstrict with
    | [], _ =>
      simp only [List.nil_append, find_closest_unfold]
      congr 1
      exact fcLoop_no_improve s v l₂ a (distSq a s v)
        (fun b hb => not_lt.mpr (hmin b (by simp [hb])))
    | c :: l₁', hstrict =>
      simp only [List.cons_append, find_closest_unfold]
      congr 1
      exact fcLoop_earliest s v l₁' c a l₂ (distSq c s v)
        (hstrict c (List.mem_cons_self c l₁'))
        (fun b hb => hstrict b (List.mem_cons_of_mem c hb))
        (fun b hb => hmin b (by simp [hb]))
  simp only [normalize_action, hfc]

/-- C7 witness: `(-1, 0)` and `(1, 0)` are equidistant from `(0, 0)`;
the earlier one is returned. -/
theorem C7_tie_break_earliest_witness :
    normalize_action (some (.discrete ([] ++ (⟨-1, 0⟩ : DiscreteAction) :: [⟨1, 0⟩])))
      0 0 = .ok ⟨-1, 0⟩ :=
  C7_tie_break_earliest [] ⟨-1, 0⟩ [⟨1, 0⟩] 0 0
    (by intro b hb
        simp only [List.nil_append, List.mem_cons, List.not_mem_nil, or_false] at hb
        rcases hb with rfl | rfl
        · exact le_refl _
        · simp [distSq])
    (by simp)

/-- C1 counterexample: when reading the image file fails, the outer
`except` of `process_image` returns plain
`{"steering_angle": 0.0, "speed": 1.0}` — with **no** `fallback` flag and
**no** `error` string — contradicting the claim that every caught
per-frame error yields `fallback=true` and a non-empty `error`. -/
theorem C1_fallback_counterexample :
    process_image none (.error "No such file or directory".toList) (.ok Json.null) =
      .obj (.cons skey (.num 0) (.cons vkey (.num 1) .nil)) ∧
    fieldsHasKey fkey (.cons skey (.num 0) (.cons vkey (.num 1) .nil)) = false ∧
    fieldsHasKey ekey (.cons skey (.num 0) (.cons vkey (.num 1) .nil)) = false :=
  ⟨rfl, rfl, rfl⟩

/-- C1 (amended): `process_image` never propagates an exception (it is a
total function of its collaborators' outcomes).  Every error of the model
round trip — extraction, protocol, or any unexpected exception — is
caught by the inner handler and becomes
`{steering_angle: 0.0, speed: 1.0, fallback: true, error: <non-empty>}`;
but a failure to read the image file is caught by the outer handler and
becomes plain `{steering_angle: 0.0, speed: 1.0}` without `fallback` or
`error`. -/
theorem C1_per_frame_error_fallback :
    (∀ (metadata : Option ActionSpace) (e : List Char)
        (proc : Except (List Char) Json),
      process_image metadata (.error e) proc =
        .obj (.cons skey (.num 0) (.cons vkey (.num 1) .nil))) ∧
    (∀ (metadata : Option ActionSpace) (e : List Char),
      process_image metadata (.ok ()) (.error e) =
        .obj (.cons skey (.num 0) (.cons vkey (.num 1)
          (.cons fkey (.bool true)
            (.cons ekey (.str ("Failed to process: ".toList ++ e)) .nil)))) ∧
      "Failed to process: ".toList ++ e ≠ []) := by
  constructor
  · intro metadata e proc
    rfl
  · intro metadata e
    refine ⟨rfl, ?_⟩
    simp

/-- C10: when the `try` body of `_normalize_action` fails (for instance
`float()` on a non-numeric steering value), the original action dict is
returned unchanged, and `process_image` passes it through — an action
that was never normalized into the declared action space and carries no
`fallback` flag. -/
theorem C10_normalize_failure_returns_original :
    ∀ (metadata : Option ActionSpace) (action : Json) (e : List Char),
      pyContains skey action = .ok true →
      pyContains vkey action = .ok true →
      normalizeComp metadata action = .error e →
      agent_normalize_action metadata action = action ∧
      process_image metadata (.ok ()) (.ok action) = action := by
  intro metadata action e h1 h2 h3
  have hn : agent_normalize_action metadata action = action := by
    simp [agent_normalize_action, h3]
  refine ⟨hn, ?_⟩
  simp only [process_image, processImageInner, Bind.bind, Except.bind, h1, h2,
    pure, Except.pure]
  simp [hn]

/-- C10 witness: the action `{"steering_angle": "full left", "speed": 2}`
fails `float()` conversion inside `_normalize_action` and is returned by
`process_image` unchanged — no `fallback` key, steering not a number. -/
theorem C10_normalize_failure_returns_original_witness :
    agent_normalize_action (some (.continuous sampleContinuous)) sampleBadAction =
      sampleBadAction ∧
    process_image (some (.continuous sampleContinuous)) (.ok ()) (.ok sampleBadAction) =
      sampleBadAction :=
  C10_normalize_failure_returns_original (some (.continuous sampleContinuous))
    sampleBadAction "ValueError: could not convert string to float".toList
    rfl rfl rfl

/-! ### Digit-string lemmas (towards C4) -/

theorem digitChar_isDigit {d : Nat} (h : d < 10) : isDigitCh (digitChar d) = true := by
  interval_cases d <;> decide

theorem digitChar_toNat_sub {d : Nat} (h : d < 10) : (digitChar d).toNat - 48 = d := by
  interval_cases d <;> decide

theorem isDigitCh_toNat {c : Char} (h : isDigitCh c = true) :
    48 ≤ c.toNat ∧ c.toNat ≤ 57 := by
  simp only [isDigitCh, Bool.and_eq_true, decide_eq_true_eq] at h
  exact h

theorem isJsonWs_of_digit {c : Char} (h : isDigitCh c = true) : isJsonWs c = false := by
  obtain ⟨h1, h2⟩ := isDigitCh_toNat h
  simp only [isJsonWs, Bool.or_eq_false_iff, decide_eq_false_iff_not]
  refine ⟨⟨⟨?_, ?_⟩, ?_⟩, ?_⟩ <;> rintro rfl <;> simp_all

theorem isPyWs_of_digit {c : Char} (h : isDigitCh c = true) : isPyWs c = false := by
  obtain ⟨h1, h2⟩ := isDigitCh_toNat h
  simp only [isPyWs, Bool.or_eq_false_iff, decide_eq_false_iff_not]
  refine ⟨⟨⟨⟨⟨?_, ?_⟩, ?_⟩, ?_⟩, ?_⟩, ?_⟩ <;> rintro rfl <;> simp_all

theorem dchars_all_digits : ∀ n : Nat, ∀ c ∈ dchars n, isDigitCh c = true := by
  intro n
  induction n using Nat.strong_induction_on with
  | _ n ih =>
    intro c hc
    rw [dchars] at hc
    split at hc
    · simp only [List.mem_singleton] at hc
      subst hc
      exact digitChar_isDigit (by omega)
    · rcases List.mem_append.mp hc with h | h
      · exact ih (n / 10) (Nat.div_lt_self (by omega) (by omega)) c h
      · simp only [List.mem_singleton] at h
        subst h
        exact digitChar_isDigit (Nat.mod_lt n (by omega))

theorem dchars_ne_nil (n : Nat) : dchars n ≠ [] := by
  rw [dchars]
  split
  · simp
  · simp

theorem digitsValAux_append (acc : Nat) (l₁ l₂ : List Char) :
    digitsValAux acc (l₁ ++ l₂) = digitsValAux (digitsValAux acc l₁) l₂ := by
  induction l₁ generalizing acc with
  | nil => rfl
  | cons c t ih =>
    show digitsValAux (10 * acc + (c.toNat - 48)) (t ++ l₂) =
      digitsValAux (digitsValAux (10 * acc + (c.toNat - 48)) t) l₂
    exact ih _

theorem digitsValAux_dchars (n : Nat) :
    ∀ acc, digitsValAux acc (dchars n) = acc * 10 ^ (dchars n).length + n := by
  induction n using Nat.strong_induction_on with
  | _ n ih =>
    intro acc
    rw [dchars]
    split
    · show digitsValAux (10 * acc + ((digitChar n).toNat - 48)) [] =
          acc * 10 ^ (List.length [digitChar n]) + n
      show 10 * acc + ((digitChar n).toNat - 48) = acc * 10 ^ (List.length [digitChar n]) + n
      rw [digitChar_toNat_sub (by omega), List.length_singleton]
      ring
    · rw [digitsValAux_append, ih (n / 10) (Nat.div_lt_self (by omega) (by omega)),
        List.length_append]
      show digitsValAux
          (10 * (acc * 10 ^ (dchars (n / 10)).length + n / 10) +
            ((digitChar (n % 10)).toNat - 48)) [] =
        acc * 10 ^ ((dchars (n / 10)).length + List.length [digitChar (n % 10)]) + n
      show 10 * (acc * 10 ^ (dchars (n / 10)).length + n / 10) +
          ((digitChar (n % 10)).toNat - 48) =
        acc * 10 ^ ((dchars (n / 10)).length + List.length [digitChar (n % 10)]) + n
      rw [digitChar_toNat_sub (Nat.mod_lt n (by omega)), List.length_singleton]
      have hdm := Nat.div_add_mod n 10
      have hp : acc * 10 ^ ((dchars (n / 10)).length + 1) =
          acc * 10 ^ (dchars (n / 10)).length * 10 := by ring
      rw [hp]
      omega

theorem digitsVal_dchars (n : Nat) : digitsVal (dchars n) = n := by
  have := digitsValAux_dchars n 0
  simpa [digitsVal] using this

theorem natToCharsAux_eq_dchars :
    ∀ (fuel n : Nat) (acc : List Char), n < 10 ^ (fuel + 1) →
      natToCharsAux (fuel + 1) n acc = dchars n ++ acc := by
  intro fuel
  induction fuel with
  | zero =>
    intro n acc h
    have hn : n < 10 := by simpa using h
    rw [natToCharsAux, if_pos hn]
    conv_rhs => rw [dchars]
    rw [dif_pos hn, Nat.mod_eq_of_lt hn]
    simp
  | succ fuel ih =>
    intro n acc h
    by_cases hn : n < 10
    · rw [natToCharsAux, if_pos hn]
      conv_rhs => rw [dchars]
      rw [dif_pos hn, Nat.mod_eq_of_lt hn]
      simp
    · have hdiv : n / 10 < 10 ^ (fuel + 1) := by
        rw [Nat.div_lt_iff_lt_mul (by omega)]
        calc n < 10 ^ (fuel + 2) := h
          _ = 10 ^ (fuel + 1) * 10 := by rw [pow_succ]
      rw [natToCharsAux, if_neg hn, ih (n / 10) _ hdiv]
      conv_rhs => rw [dchars]
      rw [dif_neg hn]
      simp

theorem natToChars_eq_dchars (n : Nat) : natToChars n = dchars n := by
  have hlt : n < 10 ^ (n + 1) := by
    calc n < 10 ^ n := Nat.lt_pow_self (by omega) n
      _ ≤ 10 ^ (n + 1) := Nat.pow_le_pow_right (by omega) (Nat.le_succ n)
  have := natToCharsAux_eq_dchars n n [] hlt
  simpa [natToChars] using this

theorem takeWhile_append_of_all {p : Char → Bool} :
    ∀ (l rest : List Char), (∀ c ∈ l, p c = true) → headFalse p rest →
      (l ++ rest).takeWhile p = l := by
  intro l
  induction l with
  | nil =>
    intro rest _ hr
    cases rest with
    | nil => rfl
    | cons c t =>
      have hc : p c = false := hr
      simp [List.takeWhile_cons, hc]
  | cons c t ih =>
    intro rest hall hr
    have hc : p c = true := hall c (List.mem_cons_self c t)
    simp [List.takeWhile_cons, hc, ih rest (fun x hx => hall x (List.mem_cons_of_mem c hx)) hr]

theorem dropWhile_append_of_all {p : Char → Bool} :
    ∀ (l rest : List Char), (∀ c ∈ l, p c = true) → headFalse p rest →
      (l ++ rest).dropWhile p = rest := by
  intro l
  induction l with
  | nil =>
    intro rest _ hr
    cases rest with
    | nil => rfl
    | cons c t =>
      have hc : p c = false := hr
      simp [List.dropWhile_cons, hc]
  | cons c t ih =>
    intro rest hall hr
    have hc : p c = true := hall c (List.mem_cons_self c t)
    simp [List.dropWhile_cons, hc, ih rest (fun x hx => hall x (List.mem_cons_of_mem c hx)) hr]

theorem parseDigits_dchars (n : Nat) (rest : List Char) (hr : headFalse isDigitCh rest) :
    parseDigits (dchars n ++ rest) = some (n, rest) := by
  have htake := takeWhile_append_of_all (dchars n) rest (dchars_all_digits n) hr
  have hdrop := dropWhile_append_of_all (dchars n) rest (dchars_all_digits n) hr
  unfold parseDigits
  rw [htake, hdrop]
  cases hd : dchars n with
  | nil => exact absurd hd (dchars_ne_nil n)
  | cons c t =>
    have hv : digitsVal (c :: t) = n := by
      rw [← hd]
      exact digitsVal_dchars n
    simp [hv]

/-! ### Character and shape facts for the serializer (towards C4) -/

theorem digit_facts {c : Char} (h : isDigitCh c = true) :
    isJsonWs c = false ∧ isPyWs c = false ∧ c ≠ ']' ∧ c ≠ '}' ∧ c ≠ 'n' ∧ c ≠ 't' ∧
      c ≠ 'f' ∧ c ≠ '"' ∧ c ≠ '[' ∧ c ≠ '{' ∧ c ≠ '-' ∧ c ≠ btick := by
  obtain ⟨h1, h2⟩ := isDigitCh_toNat h
  refine ⟨isJsonWs_of_digit h, isPyWs_of_digit h, ?_, ?_, ?_, ?_, ?_, ?_, ?_, ?_, ?_, ?_⟩ <;>
    (rintro rfl; revert h; decide)

theorem skipJsonWs_cons_nonws {c : Char} (h : isJsonWs c = false) (t : List Char) :
    skipJsonWs (c :: t) = c :: t := by
  simp [skipJsonWs, List.dropWhile_cons, h]

theorem char_ne_of_toNat {c : Char} {d : Char} (h : c.toNat ≠ d.toNat) : c ≠ d := by
  intro he
  exact h (by rw [he])

theorem strOkChar_facts {c : Char} (h : strOkChar c = true) :
    c ≠ '"' ∧ c ≠ '\\' ∧ c ≠ btick ∧ c ≠ '{' ∧ c ≠ '}' := by
  simp only [strOkChar, Bool.and_eq_true, decide_eq_true_eq] at h
  obtain ⟨⟨⟨⟨⟨⟨_, _⟩, h34⟩, h92⟩, h96⟩, h123⟩, h125⟩ := h
  exact ⟨char_ne_of_toNat (by simpa using h34), char_ne_of_toNat (by simpa using h92),
    char_ne_of_toNat (by simpa using h96), char_ne_of_toNat (by simpa using h123),
    char_ne_of_toNat (by simpa using h125)⟩

theorem takeStringBody_append {s : List Char} (hs : strOk s = true) (rest : List Char) :
    takeStringBody (s ++ '"' :: rest) = some (s, rest) := by
  induction s with
  | nil =>
    rw [List.nil_append, takeStringBody]
    simp
  | cons c t ih =>
    have hc : strOkChar c = true ∧ strOk t = true := by
      simpa [strOk] using hs
    obtain ⟨h34, h92, _, _, _⟩ := strOkChar_facts hc.1
    rw [List.cons_append, takeStringBody, if_neg h34, if_neg h92, ih hc.2]
    rfl

theorem intToChars_shape (i : Int) :
    ∃ c t, intToChars i = c :: t ∧ (c = '-' ∨ isDigitCh c = true) := by
  unfold intToChars
  split
  · exact ⟨'-', _, rfl, Or.inl rfl⟩
  · rw [natToChars_eq_dchars]
    cases hd : dchars i.toNat with
    | nil => exact absurd hd (dchars_ne_nil _)
    | cons c t =>
      refine ⟨c, t, rfl, Or.inr ?_⟩
      exact dchars_all_digits _ c (hd ▸ List.mem_cons_self c t)

theorem ratToChars_shape (q : ℚ) :
    ∃ c t, ratToChars q = c :: t ∧ (c = '-' ∨ isDigitCh c = true) := by
  obtain ⟨c, t, hi, hc⟩ := intToChars_shape q.num
  unfold ratToChars
  split
  · exact ⟨c, t, hi, hc⟩
  · exact ⟨c, t ++ '/' :: natToChars q.den, by rw [hi, List.cons_append], hc⟩

/-- Heads of serializations: always a non-whitespace character that is
none of the structural closers/separators the parser dispatches on. -/
theorem dumps_head_spec (v : Json) :
    ∃ c t, dumps v = c :: t ∧ isJsonWs c = false ∧ isPyWs c = false ∧
      c ≠ ']' ∧ c ≠ '}' := by
  cases v with
  | null => exact ⟨'n', _, rfl, by decide, by decide, by decide, by decide⟩
  | bool b =>
    cases b with
    | true => exact ⟨'t', _, rfl, by decide, by decide, by decide, by decide⟩
    | false => exact ⟨'f', _, rfl, by decide, by decide, by decide, by decide⟩
  | num q =>
    obtain ⟨c, t, hq, hc⟩ := ratToChars_shape q
    refine ⟨c, t, hq, ?_⟩
    rcases hc with rfl | hd
    · exact ⟨by decide, by decide, by decide, by decide⟩
    · obtain ⟨w1, w2, w3, w4, _⟩ := digit_facts hd
      exact ⟨w1, w2, w3, w4⟩
  | str s => exact ⟨'"', _, rfl, by decide, by decide, by decide, by decide⟩
  | arr items => exact ⟨'[', _, rfl, by decide, by decide, by decide, by decide⟩
  | obj fields => exact ⟨'{', _, rfl, by decide, by decide, by decide, by decide⟩

theorem dchars_getLast_digit (n : Nat) :
    ∃ c, (dchars n).getLast? = some c ∧ isDigitCh c = true := by
  induction n using Nat.strong_induction_on with
  | _ n ih =>
    rw [dchars]
    split
    · exact ⟨digitChar n, rfl, digitChar_isDigit (by omega)⟩
    · refine ⟨digitChar (n % 10), ?_, digitChar_isDigit (Nat.mod_lt n (by omega))⟩
      exact List.getLast?_concat _

/-- Last characters of serializations are never whitespace. -/
theorem dumps_last_spec (v : Json) :
    ∃ c, (dumps v).getLast? = some c ∧ isPyWs c = false := by
  cases v with
  | null => exact ⟨'l', by decide, by decide⟩
  | bool b =>
    cases b with
    | true => exact ⟨'e', by decide, by decide⟩
    | false => exact ⟨'e', by decide, by decide⟩
  | num q =>
    show ∃ c, (ratToChars q).getLast? = some c ∧ isPyWs c = false
    unfold ratToChars
    split
    · unfold intToChars
      split
      · obtain ⟨c, hc, hd⟩ := dchars_getLast_digit q.num.natAbs
        rw [natToChars_eq_dchars]
        refine ⟨c, ?_, isPyWs_of_digit hd⟩
        rw [List.getLast?_cons]
        simp [hc, List.getLast?_eq_head?_reverse.symm ▸ hc]
      · rw [natToChars_eq_dchars]
        obtain ⟨c, hc, hd⟩ := dchars_getLast_digit q.num.toNat
        exact ⟨c, hc, isPyWs_of_digit hd⟩
    · obtain ⟨c, hc, hd⟩ := dchars_getLast_digit q.den
      rw [List.getLast?_append_of_ne_nil _ (by simp), List.getLast?_cons,
        natToChars_eq_dchars]
      refine ⟨c, ?_, isPyWs_of_digit hd⟩
      simp [hc]
  | str s =>
    refine ⟨'"', ?_, by decide⟩
    show (('"' :: s) ++ ['"']).getLast? = some '"'
    exact List.getLast?_concat _
  | arr items =>
    refine ⟨']', ?_, by decide⟩
    show (('[' :: dumpsList items) ++ [']']).getLast? = some ']'
    exact List.getLast?_concat _
  | obj fields =>
    refine ⟨'}', ?_, by decide⟩
    show (('{' :: dumpsFields fields) ++ ['}']).getLast? = some '}'
    exact List.getLast?_concat _

theorem dropWhile_of_head {p : Char → Bool} :
    ∀ l : List Char, (∀ c, l.head? = some c → p c = false) → l.dropWhile p = l := by
  intro l h
  cases l with
  | nil => rfl
  | cons c t => simp [List.dropWhile_cons, h c rfl]

/-- A list with non-whitespace first and last characters is fixed by
`strip()`. -/
theorem stripChars_id (l : List Char)
    (hh : ∀ c, l.head? = some c → isPyWs c = false)
    (hl : ∀ c, l.getLast? = some c → isPyWs c = false) :
    stripChars l = l := by
  unfold stripChars
  rw [dropWhile_of_head l hh]
  rw [dropWhile_of_head l.reverse (fun c hc => hl c (by rwa [List.head?_reverse] at hc))]
  exact List.reverse_reverse l

/-- `strip()` removes exactly a single wrapping newline pair around a
serialization. -/
theorem stripChars_newline_wrap (l : List Char) (hne : l ≠ [])
    (hh : ∀ c, l.head? = some c → isPyWs c = false)
    (hl : ∀ c, l.getLast? = some c → isPyWs c = false) :
    stripChars ('\n' :: l ++ ['\n']) = l := by
  unfold stripChars
  have h1 : List.dropWhile isPyWs ('\n' :: l ++ ['\n']) = l ++ ['\n'] := by
    rw [List.cons_append, List.dropWhile_cons]
    simp only [show isPyWs '\n' = true from rfl, if_pos]
    cases l with
    | nil => exact absurd rfl hne
    | cons c t =>
      rw [List.cons_append, List.dropWhile_cons]
      simp [hh c rfl]
  rw [h1]
  have h2 : (l ++ ['\n']).reverse = '\n' :: l.reverse := by simp
  rw [h2, List.dropWhile_cons]
  simp only [show isPyWs '\n' = true from rfl, if_pos]
  rw [dropWhile_of_head l.reverse
    (fun c hc => hl c (by rwa [List.head?_reverse] at hc))]
  exact List.reverse_reverse l

theorem beginsWith_cons_false {a b : Char} (h : a ≠ b) (as bs : List Char) :
    beginsWith (a :: as) (b :: bs) = false := by
  simp [beginsWith, h]

theorem rat_of_den_one {q : ℚ} (hq : q.den = 1) : ((q.num : ℚ)) = q := by
  have h := Rat.num_div_den q
  rwa [hq, Nat.cast_one, div_one] at h

/-- Parsing a serialized integer-valued JSON number. -/
theorem parseF_val_num (fuel : Nat) (q : ℚ) (hq : q.den = 1) (rest : List Char)
    (hr : headFalse isDigitCh rest) :
    parseF (fuel + 1) .val (ratToChars q ++ rest) = some (.num q, rest) := by
  rw [show ratToChars q = intToChars q.num from by unfold ratToChars; rw [if_pos hq]]
  by_cases hneg : q.num < 0
  · rw [show intToChars q.num = '-' :: natToChars q.num.natAbs from by
      unfold intToChars; rw [if_pos hneg], natToChars_eq_dchars]
    simp only [parseF, List.cons_append]
    rw [skipJsonWs_cons_nonws (by decide)]
    simp only [show ∀ X, beginsWith ['n', 'u', 'l', 'l'] ('-' :: X) = false from
        fun _ => rfl,
      show ∀ X, beginsWith ['t', 'r', 'u', 'e'] ('-' :: X) = false from fun _ => rfl,
      show ∀ X, beginsWith ['f', 'a', 'l', 's', 'e'] ('-' :: X) = false from
        fun _ => rfl,
      Bool.false_eq_true, if_false, if_neg (show ¬('-' = '"') from by decide),
      if_neg (show ¬('-' = '[') from by decide),
      if_neg (show ¬('-' = '{') from by decide), if_pos rfl]
    rw [parseDigits_dchars _ rest hr]
    have hcast : -((q.num.natAbs : ℚ)) = q := by
      have h1 : ((q.num.natAbs : ℤ)) = -q.num := by omega
      have h2 : ((q.num.natAbs : ℚ)) = -((q.num : ℚ)) := by
        rw [show ((q.num.natAbs : ℚ)) = (((q.num.natAbs : ℤ) : ℚ)) from
          (Int.cast_natCast q.num.natAbs).symm]
        rw [h1, Int.cast_neg]
      rw [h2, neg_neg, rat_of_den_one hq]
    simp [hcast]
  · rw [show intToChars q.num = natToChars q.num.toNat from by
      unfold intToChars; rw [if_neg hneg], natToChars_eq_dchars]
    obtain hd : dchars q.num.toNat ≠ [] := dchars_ne_nil _
    cases hdc : dchars q.num.toNat with
    | nil => exact absurd hdc hd
    | cons c t =>
      have hcd : isDigitCh c = true :=
        dchars_all_digits _ c (hdc ▸ List.mem_cons_self c t)
      obtain ⟨w1, _, _, _, wn, wt, wf, wq, wb, wbr, wm, _⟩ := digit_facts hcd
      simp only [parseF, List.cons_append]
      rw [skipJsonWs_cons_nonws w1]
      simp only [beginsWith_cons_false (fun h => wn h.symm),
        beginsWith_cons_false (fun h => wt h.symm),
        beginsWith_cons_false (fun h => wf h.symm),
        Bool.false_eq_true, if_false, if_neg wq, if_neg wb, if_neg wbr,
        if_neg wm, if_pos hcd]
      rw [show c :: (t ++ rest) = (c :: t) ++ rest from rfl, ← hdc,
        parseDigits_dchars _ rest hr]
      have hnn : (0 : ℤ) ≤ q.num := le_of_not_lt hneg
      have hcast : ((q.num.toNat : ℕ) : ℚ) = q := by
        have h1 : ((q.num.toNat : ℚ)) = ((q.num : ℚ)) := by
          exact_mod_cast Int.toNat_of_nonneg hnn
        rw [h1, rat_of_den_one hq]
      simp [hcast]

theorem parseF_val_ws {c : Char} (hc : isJsonWs c = true) (fuel : Nat) (X : List Char) :
    parseF fuel .val (c :: X) = parseF fuel .val X := by
  cases fuel with
  | zero => rfl
  | succ g =>
    simp only [parseF]
    rw [show skipJsonWs (c :: X) = skipJsonWs X from by
      simp [skipJsonWs, List.dropWhile_cons, hc]]

theorem parseF_arrItems_ws {c : Char} (hc : isJsonWs c = true) (fuel : Nat)
    (X : List Char) :
    parseF fuel .arrItems (c :: X) = parseF fuel .arrItems X := by
  cases fuel with
  | zero => rfl
  | succ g =>
    simp only [parseF]
    rw [parseF_val_ws hc]

theorem parseF_objItems_ws {c : Char} (hc : isJsonWs c = true) (fuel : Nat)
    (X : List Char) :
    parseF fuel .objItems (c :: X) = parseF fuel .objItems X := by
  cases fuel with
  | zero => rfl
  | succ g =>
    simp only [parseF]
    rw [show skipJsonWs (c :: X) = skipJsonWs X from by
      simp [skipJsonWs, List.dropWhile_cons, hc]]

/-! ### Evaluation rules of `parseF` at literal heads (all definitional) -/

theorem parseF_val_null (fuel : Nat) (X : List Char) :
    parseF (fuel + 1) .val ('n' :: 'u' :: 'l' :: 'l' :: X) = some (.null, X) := rfl

theorem parseF_val_true (fuel : Nat) (X : List Char) :
    parseF (fuel + 1) .val ('t' :: 'r' :: 'u' :: 'e' :: X) = some (.bool true, X) := rfl

theorem parseF_val_false (fuel : Nat) (X : List Char) :
    parseF (fuel + 1) .val ('f' :: 'a' :: 'l' :: 's' :: 'e' :: X) =
      some (.bool false, X) := rfl

theorem parseF_val_quote (fuel : Nat) (X : List Char) :
    parseF (fuel + 1) .val ('"' :: X) =
      (match takeStringBody X with
       | some (s, rest2) => some (.str s, rest2)
       | none => none) := rfl

theorem parseF_val_bracket (fuel : Nat) (X : List Char) :
    parseF (fuel + 1) .val ('[' :: X) =
      (match skipJsonWs X with
       | ']' :: rest2 => some (.arr .nil, rest2)
       | _ => parseF fuel .arrItems X) := rfl

theorem parseF_val_brace (fuel : Nat) (X : List Char) :
    parseF (fuel + 1) .val ('{' :: X) =
      (match skipJsonWs X with
       | '}' :: rest2 => some (.obj .nil, rest2)
       | _ => parseF fuel .objItems X) := rfl

theorem parseF_arrItems_eval (fuel : Nat) (X : List Char) :
    parseF (fuel + 1) .arrItems X =
      (match parseF fuel .val X with
       | some (v, rest) =>
         (match skipJsonWs rest with
          | ',' :: rest2 =>
            (match parseF fuel .arrItems rest2 with
             | some (.arr items, rest3) => some (.arr (.cons v items), rest3)
             | _ => none)
          | ']' :: rest2 => some (.arr (.cons v .nil), rest2)
          | _ => none)
       | none => none) := rfl

theorem parseF_objItems_eval (fuel : Nat) (X : List Char) :
    parseF (fuel + 1) .objItems X =
      (match skipJsonWs X with
       | '"' :: rest =>
         (match takeStringBody rest with
          | some (k, rest1) =>
            (match skipJsonWs rest1 with
             | ':' :: rest2 =>
               (match parseF fuel .val rest2 with
                | some (v, rest3) =>
                  (match skipJsonWs rest3 with
                   | ',' :: rest4 =>
                     (match parseF fuel .objItems rest4 with
                      | some (.obj fs, rest5) => some (.obj (.cons k v fs), rest5)
                      | _ => none)
                   | '}' :: rest4 => some (.obj (.cons k v .nil), rest4)
                   | _ => none)
                | none => none)
             | _ => none)
          | none => none)
       | _ => none) := rfl

/-! ### The serializer/parser round trip (towards C4)

`rt_val` is the heart of the amended C4: on the modelled fragment the
parser inverts the serializer, with any non-digit-headed remainder. -/

mutual

theorem rt_val : ∀ (v : Json) (fuel : Nat), fnV v ≤ fuel → wfJson v = true →
    ∀ rest, headFalse isDigitCh rest →
      parseF fuel .val (dumps v ++ rest) = some (v, rest)
  | .null, fuel, hf, _, rest, _ => by
    obtain ⟨g, rfl⟩ : ∃ g, fuel = g + 1 := ⟨fuel - 1, by simp [fnV] at hf; omega⟩
    exact parseF_val_null g rest
  | .bool true, fuel, hf, _, rest, _ => by
    obtain ⟨g, rfl⟩ : ∃ g, fuel = g + 1 := ⟨fuel - 1, by simp [fnV] at hf; omega⟩
    exact parseF_val_true g rest
  | .bool false, fuel, hf, _, rest, _ => by
    obtain ⟨g, rfl⟩ : ∃ g, fuel = g + 1 := ⟨fuel - 1, by simp [fnV] at hf; omega⟩
    exact parseF_val_false g rest
  | .num q, fuel, hf, hwf, rest, hr => by
    obtain ⟨g, rfl⟩ : ∃ g, fuel = g + 1 := ⟨fuel - 1, by simp [fnV] at hf; omega⟩
    have hq : q.den = 1 := by simpa [wfJson] using hwf
    exact parseF_val_num g q hq rest hr
  | .str s, fuel, hf, hwf, rest, _ => by
    obtain ⟨g, rfl⟩ : ∃ g, fuel = g + 1 := ⟨fuel - 1, by simp [fnV] at hf; omega⟩
    have hs : strOk s = true := by simpa [wfJson] using hwf
    rw [show dumps (.str s) ++ rest = '"' :: (s ++ '"' :: rest) from by simp [dumps]]
    rw [parseF_val_quote, takeStringBody_append hs]
  | .arr items, fuel, hf, hwf, rest, _ => by
    obtain ⟨g, rfl⟩ : ∃ g, fuel = g + 1 := ⟨fuel - 1, by simp [fnV] at hf; omega⟩
    rw [show dumps (.arr items) ++ rest = '[' :: (dumpsList items ++ ']' :: rest) from
      by simp [dumps]]
    rw [parseF_val_bracket]
    match items with
    | .nil =>
      rw [show dumpsList .nil ++ ']' :: rest = ']' :: rest from rfl,
        skipJsonWs_cons_nonws (by decide)]
      rfl
    | .cons v2 tl =>
      obtain ⟨c2, t2, hd2, hw2, _, hne2, _⟩ := dumps_head_spec v2
      have hR : ∃ R, dumpsList (.cons v2 tl) ++ ']' :: rest = c2 :: R := by
        match tl with
        | .nil => exact ⟨t2 ++ ']' :: rest, by simp [dumpsList, hd2]⟩
        | .cons v3 tl3 =>
          exact ⟨t2 ++ (',' :: ' ' :: (dumpsList (.cons v3 tl3) ++ ']' :: rest)), by
            simp [dumpsList, hd2]⟩
      obtain ⟨R, hR⟩ := hR
      have hfl : fnL (.cons v2 tl) ≤ g := by simp [fnV, fnL] at hf ⊢; omega
      have hna : (JsonList.cons v2 tl) ≠ .nil := by intro h; exact JsonList.noConfusion h
      have hrec := rt_items (.cons v2 tl) g hfl (by simpa [wfJson] using hwf) hna rest
      rw [hR, skipJsonWs_cons_nonws hw2]
      split
      · rename_i heq
        exact absurd (List.cons.inj heq).1 hne2
      · rw [← hR]
        exact hrec
  | .obj fields, fuel, hf, hwf, rest, _ => by
    obtain ⟨g, rfl⟩ : ∃ g, fuel = g + 1 := ⟨fuel - 1, by simp [fnV] at hf; omega⟩
    rw [show dumps (.obj fields) ++ rest = '{' :: (dumpsFields fields ++ '}' :: rest)
      from by simp [dumps]]
    rw [parseF_val_brace]
    match fields with
    | .nil =>
      rw [show dumpsFields .nil ++ '}' :: rest = '}' :: rest from rfl,
        skipJsonWs_cons_nonws (by decide)]
      rfl
    | .cons k v2 tl =>
      have hT : ∃ T, dumpsFields (.cons k v2 tl) ++ '}' :: rest = '"' :: T := by
        match tl with
        | .nil =>
          exact ⟨k ++ '"' :: ':' :: ' ' :: (dumps v2 ++ '}' :: rest), by
            simp [dumpsFields]⟩
        | .cons k3 v3 tl3 =>
          exact ⟨k ++ '"' :: ':' :: ' ' :: (dumps v2 ++
              ',' :: ' ' :: (dumpsFields (.cons k3 v3 tl3) ++ '}' :: rest)), by
            simp [dumpsFields]⟩
      obtain ⟨T, hT⟩ := hT
      have hff : fnF (.cons k v2 tl) ≤ g := by simp [fnV, fnF] at hf ⊢; omega
      have hna : (JsonFields.cons k v2 tl) ≠ .nil := by
        intro h; exact JsonFields.noConfusion h
      have hrec := rt_fields (.cons k v2 tl) g hff (by simpa [wfJson] using hwf) hna rest
      rw [hT, skipJsonWs_cons_nonws (by decide)]
      split
      · rename_i heq
        exact absurd (List.cons.inj heq).1 (by decide)
      · rw [← hT]
        exact hrec

theorem rt_items : ∀ (items : JsonList) (fuel : Nat), fnL items ≤ fuel →
    wfList items = true → items ≠ .nil → ∀ rest,
      parseF fuel .arrItems (dumpsList items ++ ']' :: rest) =
        some (.arr items, rest)
  | .nil, _, _, _, hne, _ => absurd rfl hne
  | .cons v tl, fuel, hf, hwf, _, rest => by
    obtain ⟨g, rfl⟩ : ∃ g, fuel = g + 1 := ⟨fuel - 1, by simp [fnL] at hf; omega⟩
    have hwv : wfJson v = true ∧ wfList tl = true := by simpa [wfList] using hwf
    match tl with
    | .nil =>
      have h1 := rt_val v g (by simp [fnL] at hf; omega) hwv.1 (']' :: rest)
        (by exact rfl)
      rw [show dumpsList (.cons v .nil) ++ ']' :: rest = dumps v ++ ']' :: rest from by
        simp [dumpsList]]
      rw [parseF_arrItems_eval, h1]
      simp only [skipJsonWs_cons_nonws (show isJsonWs ']' = false from by decide) rest]
    | .cons v3 tl3 =>
      have h1 := rt_val v g (by simp [fnL] at hf; omega) hwv.1
        (',' :: ' ' :: (dumpsList (.cons v3 tl3) ++ ']' :: rest)) (by exact rfl)
      have h2 := rt_items (.cons v3 tl3) g (by simp [fnL] at hf ⊢; omega) hwv.2
        (by intro h; exact JsonList.noConfusion h) rest
      rw [show dumpsList (.cons v (.cons v3 tl3)) ++ ']' :: rest =
          dumps v ++ ',' :: ' ' :: (dumpsList (.cons v3 tl3) ++ ']' :: rest) from by
        simp [dumpsList]]
      rw [parseF_arrItems_eval, h1]
      simp only [skipJsonWs_cons_nonws (show isJsonWs ',' = false from by decide),
        parseF_arrItems_ws (show isJsonWs ' ' = true from by decide), h2]

theorem rt_fields : ∀ (fields : JsonFields) (fuel : Nat), fnF fields ≤ fuel →
    wfFields fields = true → fields ≠ .nil → ∀ rest,
      parseF fuel .objItems (dumpsFields fields ++ '}' :: rest) =
        some (.obj fields, rest)
  | .nil, _, _, _, hne, _ => absurd rfl hne
  | .cons k v tl, fuel, hf, hwf, _, rest => by
    obtain ⟨g, rfl⟩ : ∃ g, fuel = g + 1 := ⟨fuel - 1, by simp [fnF] at hf; omega⟩
    have hwv : (strOk k = true ∧ wfJson v = true) ∧ wfFields tl = true := by
      simpa [wfFields] using hwf
    match tl with
    | .nil =>
      have h1 := rt_val v g (by simp [fnF] at hf; omega) hwv.1.2 ('}' :: rest)
        (by exact rfl)
      rw [show dumpsFields (.cons k v .nil) ++ '}' :: rest =
          '"' :: (k ++ '"' :: (':' :: ' ' :: (dumps v ++ '}' :: rest))) from by
        simp [dumpsFields]]
      rw [parseF_objItems_eval]
      simp only [skipJsonWs_cons_nonws (show isJsonWs '"' = false from by decide),
        takeStringBody_append hwv.1.1,
        skipJsonWs_cons_nonws (show isJsonWs ':' = false from by decide),
        parseF_val_ws (show isJsonWs ' ' = true from by decide), h1,
        skipJsonWs_cons_nonws (show isJsonWs '}' = false from by decide) rest]
    | .cons k3 v3 tl3 =>
      have h1 := rt_val v g (by simp [fnF] at hf; omega) hwv.1.2
        (',' :: ' ' :: (dumpsFields (.cons k3 v3 tl3) ++ '}' :: rest)) (by exact rfl)
      have h2 := rt_fields (.cons k3 v3 tl3) g (by simp [fnF] at hf ⊢; omega) hwv.2
        (by intro h; exact JsonFields.noConfusion h) rest
      rw [show dumpsFields (.cons k v (.cons k3 v3 tl3)) ++ '}' :: rest =
          '"' :: (k ++ '"' :: (':' :: ' ' :: (dumps v ++
            ',' :: ' ' :: (dumpsFields (.cons k3 v3 tl3) ++ '}' :: rest)))) from by
        simp [dumpsFields]]
      rw [parseF_objItems_eval]
      simp only [skipJsonWs_cons_nonws (show isJsonWs '"' = false from by decide),
        takeStringBody_append hwv.1.1,
        skipJsonWs_cons_nonws (show isJsonWs ':' = false from by decide),
        parseF_val_ws (show isJsonWs ' ' = true from by decide), h1,
        skipJsonWs_cons_nonws (show isJsonWs ',' = false from by decide),
        parseF_objItems_ws (show isJsonWs ' ' = true from by decide), h2]

end

/-! ### Fuel adequacy and `loads ∘ dumps` -/

mutual

theorem fnV_le_dumps_length : ∀ v : Json, fnV v ≤ (dumps v).length
  | .null => by simp [fnV, dumps]
  | .bool true => by simp [fnV, dumps]
  | .bool false => by simp [fnV, dumps]
  | .num q => by
    obtain ⟨c, t, hq, _⟩ := ratToChars_shape q
    show fnV (.num q) ≤ (ratToChars q).length
    rw [hq]
    simp [fnV]
  | .str s => by simp [fnV, dumps]
  | .arr items => by
    have h := fnL_le_dumpsList items
    simp only [fnV, dumps, List.length_cons, List.length_append,
      List.length_singleton]
    omega
  | .obj fields => by
    have h := fnF_le_dumpsFields fields
    simp only [fnV, dumps, List.length_cons, List.length_append,
      List.length_singleton]
    omega

theorem fnL_le_dumpsList : ∀ items : JsonList, fnL items ≤ (dumpsList items).length + 1
  | .nil => by simp [fnL, dumpsList]
  | .cons v .nil => by
    have h := fnV_le_dumps_length v
    simp only [fnL, dumpsList]
    omega
  | .cons v (.cons v2 tl) => by
    have h1 := fnV_le_dumps_length v
    have h2 := fnL_le_dumpsList (.cons v2 tl)
    simp only [fnL, dumpsList, List.length_append, List.length_cons]
    simp only [fnL] at h2
    omega

theorem fnF_le_dumpsFields : ∀ fields : JsonFields,
    fnF fields ≤ (dumpsFields fields).length + 1
  | .nil => by simp [fnF, dumpsFields]
  | .cons k v .nil => by
    have h := fnV_le_dumps_length v
    simp only [fnF, dumpsFields, List.length_cons, List.length_append]
    omega
  | .cons k v (.cons k3 v3 tl3) => by
    have h1 := fnV_le_dumps_length v
    have h2 := fnF_le_dumpsFields (.cons k3 v3 tl3)
    simp only [fnF, dumpsFields, List.length_append, List.length_cons]
    simp only [fnF] at h2
    omega

end

/-- On the modelled fragment, `json.loads` inverts `json.dumps`. -/
theorem loads_dumps (v : Json) (hwf : wfJson v = true) : loads (dumps v) = some v := by
  unfold loads
  have hb : fnV v ≤ (dumps v).length + 1 :=
    le_trans (fnV_le_dumps_length v) (by omega)
  have h := rt_val v ((dumps v).length + 1) hb hwf [] trivial
  rw [List.append_nil] at h
  rw [h]
  rfl

/-! ### The regex scan on serializer output -/

theorem isFenceStart_false_of_head {c : Char} (h : c ≠ btick) (t : List Char) :
    isFenceStart (c :: t) = false := by
  cases t with
  | nil => rfl
  | cons c2 t2 =>
    cases t2 with
    | nil => rfl
    | cons c3 t3 => simp [isFenceStart, h]

theorem findFence_no_btick : ∀ (l after : List Char), (∀ c ∈ l, c ≠ btick) →
    findFence (l ++ btick :: btick :: btick :: after) = some (l, after)
  | [], after, _ => by
    rw [List.nil_append, findFence, if_pos (by rfl)]
    rfl
  | c :: l, after, hc => by
    rw [List.cons_append, findFence,
      if_neg (by
        rw [isFenceStart_false_of_head (hc c (List.mem_cons_self c l))]
        simp),
      findFence_no_btick l after (fun x hx => hc x (List.mem_cons_of_mem c hx))]
    rfl

theorem findCloseBrace_no_brace : ∀ (l after : List Char), (∀ c ∈ l, c ≠ '}') →
    findCloseBrace (l ++ '}' :: after) = some (l, after)
  | [], after, _ => by
    rw [List.nil_append, findCloseBrace, if_pos rfl]
  | c :: l, after, hc => by
    rw [List.cons_append, findCloseBrace, if_neg (hc c (List.mem_cons_self c l)),
      findCloseBrace_no_brace l after (fun x hx => hc x (List.mem_cons_of_mem c hx))]
    rfl

theorem scanJson_none : ∀ cs : List Char, (∀ c ∈ cs, c ≠ btick ∧ c ≠ '{') →
    scanJson cs = none
  | [], _ => rfl
  | c :: rest, h => by
    have hc := h c (List.mem_cons_self c rest)
    have hatt : attemptAt (c :: rest) = none := by
      unfold attemptAt
      rw [if_neg (by
        rw [isFenceStart_false_of_head hc.1]
        simp)]
      split
      · rename_i heq
        exact absurd (List.cons.inj heq).1 hc.2
      · rfl
    rw [scanJson, hatt, scanJson_none rest (fun x hx => h x (List.mem_cons_of_mem c hx))]

/-! ### Character census of serializer output -/

theorem strOk_mem {s : List Char} (hs : strOk s = true) {c : Char} (hc : c ∈ s) :
    strOkChar c = true := by
  simp only [strOk, List.all_eq_true] at hs
  exact hs c hc

theorem intToChars_chars (i : Int) :
    ∀ c ∈ intToChars i, c ≠ btick ∧ c ≠ '{' ∧ c ≠ '}' := by
  intro c hc
  unfold intToChars at hc
  split at hc
  · rw [natToChars_eq_dchars] at hc
    rcases List.mem_cons.1 hc with rfl | hm
    · exact ⟨by decide, by decide, by decide⟩
    · obtain ⟨_, _, _, w4, _, _, _, _, _, w10, _, w12⟩ :=
        digit_facts (dchars_all_digits _ c hm)
      exact ⟨w12, w10, w4⟩
  · rw [natToChars_eq_dchars] at hc
    obtain ⟨_, _, _, w4, _, _, _, _, _, w10, _, w12⟩ :=
      digit_facts (dchars_all_digits _ c hc)
    exact ⟨w12, w10, w4⟩

theorem ratToChars_chars (q : ℚ) :
    ∀ c ∈ ratToChars q, c ≠ btick ∧ c ≠ '{' ∧ c ≠ '}' := by
  intro c hc
  unfold ratToChars at hc
  split at hc
  · exact intToChars_chars q.num c hc
  · rcases List.mem_append.1 hc with hm | hm
    · exact intToChars_chars q.num c hm
    · rcases List.mem_cons.1 hm with rfl | hm2
      · exact ⟨by decide, by decide, by decide⟩
      · rw [natToChars_eq_dchars] at hm2
        obtain ⟨_, _, _, w4, _, _, _, _, _, w10, _, w12⟩ :=
          digit_facts (dchars_all_digits _ c hm2)
        exact ⟨w12, w10, w4⟩

/-! No backtick ever occurs in the serialization of a well-formed value,
so a fenced block wrapping one is closed exactly at the wrapper's own
closing fence. -/

mutual

theorem dumps_no_btick : ∀ v : Json, wfJson v = true → ∀ c ∈ dumps v, c ≠ btick
  | .null, _ => by decide
  | .bool true, _ => by decide
  | .bool false, _ => by decide
  | .num q, _ => fun c hc => (ratToChars_chars q c hc).1
  | .str s, hwf => by
    intro c hc
    have hs : strOk s = true := hwf
    have hc' : c ∈ '"' :: s ++ ['"'] := hc
    rcases List.mem_cons.1 hc' with rfl | hm
    · decide
    · rcases List.mem_append.1 hm with hk | hk
      · exact (strOkChar_facts (strOk_mem hs hk)).2.2.1
      · rcases List.mem_singleton.1 hk with rfl
        decide
  | .arr items, hwf => by
    intro c hc
    have hl : wfList items = true := hwf
    have hc' : c ∈ '[' :: dumpsList items ++ [']'] := hc
    rcases List.mem_cons.1 hc' with rfl | hm
    · decide
    · rcases List.mem_append.1 hm with hk | hk
      · exact dumpsList_no_btick items hl c hk
      · rcases List.mem_singleton.1 hk with rfl
        decide
  | .obj fields, hwf => by
    intro c hc
    have hf : wfFields fields = true := hwf
    have hc' : c ∈ '{' :: dumpsFields fields ++ ['}'] := hc
    rcases List.mem_cons.1 hc' with rfl | hm
    · decide
    · rcases List.mem_append.1 hm with hk | hk
      · exact dumpsFields_no_btick fields hf c hk
      · rcases List.mem_singleton.1 hk with rfl
        decide

theorem dumpsList_no_btick :
    ∀ items : JsonList, wfList items = true → ∀ c ∈ dumpsList items, c ≠ btick
  | .nil, _ => by intro c hc; exact absurd hc (List.not_mem_nil c)
  | .cons v .nil, hwf => by
    have hwf' : (wfJson v && wfList .nil) = true := hwf
    rw [Bool.and_eq_true] at hwf'
    intro c hc
    exact dumps_no_btick v hwf'.1 c hc
  | .cons v (.cons v2 tl), hwf => by
    have hwf' : (wfJson v && wfList (.cons v2 tl)) = true := hwf
    rw [Bool.and_eq_true] at hwf'
    intro c hc
    have hc' : c ∈ dumps v ++ ',' :: ' ' :: dumpsList (.cons v2 tl) := hc
    rcases List.mem_append.1 hc' with hm | hm
    · exact dumps_no_btick v hwf'.1 c hm
    · rcases List.mem_cons.1 hm with rfl | hm2
      · decide
      · rcases List.mem_cons.1 hm2 with rfl | hm3
        · decide
        · exact dumpsList_no_btick (.cons v2 tl) hwf'.2 c hm3

theorem dumpsFields_no_btick :
    ∀ fields : JsonFields, wfFields fields = true → ∀ c ∈ dumpsFields fields, c ≠ btick
  | .nil, _ => by intro c hc; exact absurd hc (List.not_mem_nil c)
  | .cons k v .nil, hwf => by
    have hwf' : ((strOk k && wfJson v) && wfFields .nil) = true := hwf
    rw [Bool.and_eq_true, Bool.and_eq_true] at hwf'
    intro c hc
    have hc' : c ∈ '"' :: k ++ '"' :: ':' :: ' ' :: dumps v := hc
    rcases List.mem_cons.1 hc' with rfl | hm
    · decide
    · rcases List.mem_append.1 hm with hk | hk
      · exact (strOkChar_facts (strOk_mem hwf'.1.1 hk)).2.2.1
      · rcases List.mem_cons.1 hk with rfl | hk2
        · decide
        · rcases List.mem_cons.1 hk2 with rfl | hk3
          · decide
          · rcases List.mem_cons.1 hk3 with rfl | hk4
            · decide
            · exact dumps_no_btick v hwf'.1.2 c hk4
  | .cons k v (.cons k2 v2 tl), hwf => by
    have hwf' : ((strOk k && wfJson v) && wfFields (.cons k2 v2 tl)) = true := hwf
    rw [Bool.and_eq_true, Bool.and_eq_true] at hwf'
    intro c hc
    have hc' : c ∈ ('"' :: k ++ '"' :: ':' :: ' ' :: dumps v) ++
        ',' :: ' ' :: dumpsFields (.cons k2 v2 tl) := hc
    rcases List.mem_append.1 hc' with hm | hm
    · rcases List.mem_cons.1 hm with rfl | hk
      · decide
      · rcases List.mem_append.1 hk with hk1 | hk1
        · exact (strOkChar_facts (strOk_mem hwf'.1.1 hk1)).2.2.1
        · rcases List.mem_cons.1 hk1 with rfl | hk2
          · decide
          · rcases List.mem_cons.1 hk2 with rfl | hk3
            · decide
            · rcases List.mem_cons.1 hk3 with rfl | hk4
              · decide
              · exact dumps_no_btick v hwf'.1.2 c hk4
    · rcases List.mem_cons.1 hm with rfl | hm2
      · decide
      · rcases List.mem_cons.1 hm2 with rfl | hm3
        · decide
        · exact dumpsFields_no_btick (.cons k2 v2 tl) hwf'.2 c hm3

end

/-! No brace occurs in the serialization of an object-free well-formed
value, so the brace alternative of the regex never fires inside it. -/

mutual

theorem dumps_no_brace :
    ∀ v : Json, objFree v = true → wfJson v = true →
      ∀ c ∈ dumps v, c ≠ '{' ∧ c ≠ '}'
  | .null, _, _ => by decide
  | .bool true, _, _ => by decide
  | .bool false, _, _ => by decide
  | .num q, _, _ => fun c hc => ⟨(ratToChars_chars q c hc).2.1, (ratToChars_chars q c hc).2.2⟩
  | .str s, _, hwf => by
    intro c hc
    have hs : strOk s = true := hwf
    have hc' : c ∈ '"' :: s ++ ['"'] := hc
    rcases List.mem_cons.1 hc' with rfl | hm
    · decide
    · rcases List.mem_append.1 hm with hk | hk
      · exact ⟨(strOkChar_facts (strOk_mem hs hk)).2.2.2.1,
          (strOkChar_facts (strOk_mem hs hk)).2.2.2.2⟩
      · rcases List.mem_singleton.1 hk with rfl
        decide
  | .arr items, hof, hwf => by
    intro c hc
    have hl : wfList items = true := hwf
    have ho : objFreeList items = true := hof
    have hc' : c ∈ '[' :: dumpsList items ++ [']'] := hc
    rcases List.mem_cons.1 hc' with rfl | hm
    · decide
    · rcases List.mem_append.1 hm with hk | hk
      · exact dumpsList_no_brace items ho hl c hk
      · rcases List.mem_singleton.1 hk with rfl
        decide
  | .obj _, hof, _ => by
    have hfalse : (false : Bool) = true := hof
    exact (Bool.false_ne_true hfalse).elim

theorem dumpsList_no_brace :
    ∀ items : JsonList, objFreeList items = true → wfList items = true →
      ∀ c ∈ dumpsList items, c ≠ '{' ∧ c ≠ '}'
  | .nil, _, _ => by intro c hc; exact absurd hc (List.not_mem_nil c)
  | .cons v .nil, hof, hwf => by
    have hwf' : (wfJson v && wfList .nil) = true := hwf
    have hof' : (objFree v && objFreeList .nil) = true := hof
    rw [Bool.and_eq_true] at hwf' hof'
    intro c hc
    exact dumps_no_brace v hof'.1 hwf'.1 c hc
  | .cons v (.cons v2 tl), hof, hwf => by
    have hwf' : (wfJson v && wfList (.cons v2 tl)) = true := hwf
    have hof' : (objFree v && objFreeList (.cons v2 tl)) = true := hof
    rw [Bool.and_eq_true] at hwf' hof'
    intro c hc
    have hc' : c ∈ dumps v ++ ',' :: ' ' :: dumpsList (.cons v2 tl) := hc
    rcases List.mem_append.1 hc' with hm | hm
    · exact dumps_no_brace v hof'.1 hwf'.1 c hm
    · rcases List.mem_cons.1 hm with rfl | hm2
      · decide
      · rcases List.mem_cons.1 hm2 with rfl | hm3
        · decide
        · exact dumpsList_no_brace (.cons v2 tl) hof'.2 hwf'.2 c hm3

end

/-- Field lists whose values are all object-free serialize without braces
(the keys cannot contain them by `strOk`). -/
theorem dumpsFields_no_brace :
    ∀ fields : JsonFields, objFreeFields fields = true → wfFields fields = true →
      ∀ c ∈ dumpsFields fields, c ≠ '{' ∧ c ≠ '}'
  | .nil, _, _ => by intro c hc; exact absurd hc (List.not_mem_nil c)
  | .cons k v .nil, hof, hwf => by
    have hwf' : ((strOk k && wfJson v) && wfFields .nil) = true := hwf
    have hof' : (objFree v && objFreeFields .nil) = true := hof
    rw [Bool.and_eq_true, Bool.and_eq_true] at hwf'
    rw [Bool.and_eq_true] at hof'
    intro c hc
    have hc' : c ∈ '"' :: k ++ '"' :: ':' :: ' ' :: dumps v := hc
    rcases List.mem_cons.1 hc' with rfl | hm
    · decide
    · rcases List.mem_append.1 hm with hk | hk
      · exact ⟨(strOkChar_facts (strOk_mem hwf'.1.1 hk)).2.2.2.1,
          (strOkChar_facts (strOk_mem hwf'.1.1 hk)).2.2.2.2⟩
      · rcases List.mem_cons.1 hk with rfl | hk2
        · decide
        · rcases List.mem_cons.1 hk2 with rfl | hk3
          · decide
          · rcases List.mem_cons.1 hk3 with rfl | hk4
            · decide
            · exact dumps_no_brace v hof'.1 hwf'.1.2 c hk4
  | .cons k v (.cons k2 v2 tl), hof, hwf => by
    have hwf' : ((strOk k && wfJson v) && wfFields (.cons k2 v2 tl)) = true := hwf
    have hof' : (objFree v && objFreeFields (.cons k2 v2 tl)) = true := hof
    rw [Bool.and_eq_true, Bool.and_eq_true] at hwf'
    rw [Bool.and_eq_true] at hof'
    intro c hc
    have hc' : c ∈ ('"' :: k ++ '"' :: ':' :: ' ' :: dumps v) ++
        ',' :: ' ' :: dumpsFields (.cons k2 v2 tl) := hc
    rcases List.mem_append.1 hc' with hm | hm
    · rcases List.mem_cons.1 hm with rfl | hk
      · decide
      · rcases List.mem_append.1 hk with hk1 | hk1
        · exact ⟨(strOkChar_facts (strOk_mem hwf'.1.1 hk1)).2.2.2.1,
            (strOkChar_facts (strOk_mem hwf'.1.1 hk1)).2.2.2.2⟩
        · rcases List.mem_cons.1 hk1 with rfl | hk2
          · decide
          · rcases List.mem_cons.1 hk2 with rfl | hk3
            · decide
            · rcases List.mem_cons.1 hk3 with rfl | hk4
              · decide
              · exact dumps_no_brace v hof'.1 hwf'.1.2 c hk4
    · rcases List.mem_cons.1 hm with rfl | hm2
      · decide
      · rcases List.mem_cons.1 hm2 with rfl | hm3
        · decide
        · exact dumpsFields_no_brace (.cons k2 v2 tl) hof'.2 hwf'.2 c hm3

/-! ### Behaviour of the extractor on serializer output -/

theorem dumps_ne_nil (v : Json) : dumps v ≠ [] := by
  obtain ⟨c, t, h, _⟩ := dumps_head_spec v
  rw [h]
  simp

theorem dumps_head_pyws (v : Json) :
    ∀ c, (dumps v).head? = some c → isPyWs c = false := by
  obtain ⟨ch, th, hh, _, hhp, _, _⟩ := dumps_head_spec v
  intro c hc
  rw [hh, List.head?_cons] at hc
  exact Option.some.inj hc ▸ hhp

theorem dumps_last_pyws (v : Json) :
    ∀ c, (dumps v).getLast? = some c → isPyWs c = false := by
  obtain ⟨cl, hl, hlp⟩ := dumps_last_spec v
  intro c hc
  rw [hl] at hc
  exact Option.some.inj hc ▸ hlp

theorem stripChars_dumps (v : Json) : stripChars (dumps v) = dumps v :=
  stripChars_id _ (dumps_head_pyws v) (dumps_last_pyws v)

theorem attemptAt_fence_eval (X : List Char) :
    attemptAt (btick :: btick :: btick :: X) =
      (match findFence (dropJsonTag X) with
       | some (content, _) => some (stripChars content)
       | none => none) := rfl

theorem dropJsonTag_json (X : List Char) :
    dropJsonTag ('j' :: 's' :: 'o' :: 'n' :: X) = X := rfl

theorem dropJsonTag_nl (X : List Char) : dropJsonTag ('\n' :: X) = '\n' :: X := rfl

/-- The fence content produced by wrapping a serialization is found and
stripped back to the serialization. -/
theorem findFence_wrap (v : Json) (hwf : wfJson v = true) :
    findFence ('\n' :: (dumps v ++ '\n' :: btick :: btick :: btick :: [])) =
      some ('\n' :: (dumps v ++ ['\n']), []) := by
  have hchars : ∀ c ∈ '\n' :: (dumps v ++ ['\n']), c ≠ btick := by
    intro c hc
    rcases List.mem_cons.1 hc with rfl | hm
    · decide
    · rcases List.mem_append.1 hm with hk | hk
      · exact dumps_no_btick v hwf c hk
      · rcases List.mem_singleton.1 hk with rfl
        decide
  have h := findFence_no_btick ('\n' :: (dumps v ++ ['\n'])) [] hchars
  rw [show ('\n' :: (dumps v ++ ['\n'])) ++ btick :: btick :: btick :: [] =
      '\n' :: (dumps v ++ '\n' :: btick :: btick :: btick :: []) from by
    simp] at h
  exact h

theorem scan_fence_tagged (v : Json) (hwf : wfJson v = true) :
    scanJson (fenceWrapJson (dumps v)) = some (dumps v) := by
  have hshape : fenceWrapJson (dumps v) =
      btick :: btick :: btick :: 'j' :: 's' :: 'o' :: 'n' :: '\n' ::
        (dumps v ++ '\n' :: btick :: btick :: btick :: []) := by
    unfold fenceWrapJson
    rw [List.append_assoc]
    rfl
  have hstrip : stripChars ('\n' :: dumps v ++ ['\n']) = dumps v :=
    stripChars_newline_wrap (dumps v) (dumps_ne_nil v)
      (dumps_head_pyws v) (dumps_last_pyws v)
  have hatt : attemptAt (btick :: btick :: btick :: 'j' :: 's' :: 'o' :: 'n' :: '\n' ::
      (dumps v ++ '\n' :: btick :: btick :: btick :: [])) = some (dumps v) := by
    rw [attemptAt_fence_eval, dropJsonTag_json, findFence_wrap v hwf]
    show some (stripChars ('\n' :: (dumps v ++ ['\n']))) = some (dumps v)
    rw [← List.cons_append, hstrip]
  rw [hshape, scanJson, hatt]

theorem scan_fence_untagged (v : Json) (hwf : wfJson v = true) :
    scanJson (fenceWrap (dumps v)) = some (dumps v) := by
  have hshape : fenceWrap (dumps v) =
      btick :: btick :: btick :: '\n' ::
        (dumps v ++ '\n' :: btick :: btick :: btick :: []) := by
    unfold fenceWrap
    rw [List.append_assoc]
    rfl
  have hstrip : stripChars ('\n' :: dumps v ++ ['\n']) = dumps v :=
    stripChars_newline_wrap (dumps v) (dumps_ne_nil v)
      (dumps_head_pyws v) (dumps_last_pyws v)
  have hatt : attemptAt (btick :: btick :: btick :: '\n' ::
      (dumps v ++ '\n' :: btick :: btick :: btick :: [])) = some (dumps v) := by
    rw [attemptAt_fence_eval, dropJsonTag_nl, findFence_wrap v hwf]
    show some (stripChars ('\n' :: (dumps v ++ ['\n']))) = some (dumps v)
    rw [← List.cons_append, hstrip]
  rw [hshape, scanJson, hatt]

theorem extract_fenced_tagged (v : Json) (hwf : wfJson v = true) (mn : String) :
    extract_json_from_llm_response (fenceWrapJson (dumps v)) mn = .ok v := by
  simp only [extract_json_from_llm_response, scan_fence_tagged v hwf, loads_dumps v hwf]

theorem extract_fenced_untagged (v : Json) (hwf : wfJson v = true) (mn : String) :
    extract_json_from_llm_response (fenceWrap (dumps v)) mn = .ok v := by
  simp only [extract_json_from_llm_response, scan_fence_untagged v hwf, loads_dumps v hwf]

theorem extract_raw (v : Json) (hwf : wfJson v = true) (hraw : rawExtractable v = true)
    (mn : String) : extract_json_from_llm_response (dumps v) mn = .ok v := by
  unfold rawExtractable at hraw
  rw [Bool.or_eq_true] at hraw
  rcases hraw with hof | hm
  · have hscan : scanJson (dumps v) = none :=
      scanJson_none (dumps v) (fun c hc =>
        ⟨dumps_no_btick v hwf c hc, (dumps_no_brace v hof hwf c hc).1⟩)
    simp only [extract_json_from_llm_response, hscan, stripChars_dumps v,
      loads_dumps v hwf]
  · cases v with
    | null => exact absurd hm (by decide)
    | bool b => exact absurd hm (by simp)
    | num q => exact absurd hm (by simp)
    | str s => exact absurd hm (by simp)
    | arr items => exact absurd hm (by simp)
    | obj fields =>
      have hof : objFreeFields fields = true := hm
      have hwff : wfFields fields = true := hwf
      have hfcb : findCloseBrace (dumpsFields fields ++ ['}']) =
          some (dumpsFields fields, []) :=
        findCloseBrace_no_brace (dumpsFields fields) []
          (fun c hc => (dumpsFields_no_brace fields hof hwff c hc).2)
      have hatt : attemptAt ('{' :: (dumpsFields fields ++ ['}'])) =
          some (dumps (.obj fields)) := by
        unfold attemptAt
        rw [if_neg (by
          rw [isFenceStart_false_of_head (by decide)]
          simp)]
        show (match findCloseBrace (dumpsFields fields ++ ['}']) with
          | some (inner, _) => some (stripChars ('{' :: (inner ++ ['}'])))
          | none => none) = some (dumps (Json.obj fields))
        rw [hfcb]
        exact congrArg some (stripChars_dumps (Json.obj fields))
      have hscan : scanJson (dumps (.obj fields)) = some (dumps (.obj fields)) := by
        rw [show dumps (.obj fields) = '{' :: (dumpsFields fields ++ ['}']) from rfl,
          scanJson, hatt]
        rfl
      simp only [extract_json_from_llm_response, hscan, loads_dumps _ hwf]

/-- C4: for every well-formed JSON value `v` of the modelled fragment,
the extractor recovers `v` from its serialization wrapped in a fenced
code block with a `json` language tag and from one wrapped in an untagged
fenced block; the raw (un-fenced) serialization is recovered whenever `v`
is `rawExtractable` (object-free, or an object whose field values are all
object-free); and on text containing no parseable JSON the extractor
fails with the `ValueError` message of the source. -/
theorem C4_extract_round_trip :
    ∀ (v : Json) (model_name : String), wfJson v = true →
      extract_json_from_llm_response (fenceWrapJson (dumps v)) model_name = .ok v ∧
      extract_json_from_llm_response (fenceWrap (dumps v)) model_name = .ok v ∧
      (rawExtractable v = true →
        extract_json_from_llm_response (dumps v) model_name = .ok v) ∧
      extract_json_from_llm_response ("not json".toList) model_name =
        .error ("No valid JSON found in " ++ model_name ++ " response") :=
  fun v mn h =>
    ⟨extract_fenced_tagged v h mn, extract_fenced_untagged v h mn,
      fun hr => extract_raw v h hr mn, rfl⟩

/-- C4 witness: the round trip instantiated at the flat object
`{"a": 1}` — which is also `rawExtractable` — and at the literal input
`"not json"`. -/
theorem C4_extract_round_trip_witness :
    wfJson sampleFlatObj = true ∧
    rawExtractable sampleFlatObj = true ∧
    extract_json_from_llm_response (fenceWrapJson (dumps sampleFlatObj)) "LLM" =
      .ok sampleFlatObj ∧
    extract_json_from_llm_response (fenceWrap (dumps sampleFlatObj)) "LLM" =
      .ok sampleFlatObj ∧
    extract_json_from_llm_response (dumps sampleFlatObj) "LLM" = .ok sampleFlatObj ∧
    extract_json_from_llm_response ("not json".toList) "LLM" =
      .error ("No valid JSON found in " ++ "LLM" ++ " response") := by
  have h := C4_extract_round_trip sampleFlatObj "LLM" (by rfl)
  exact ⟨by rfl, by rfl, h.1, h.2.1, h.2.2.1 (by rfl), h.2.2.2⟩

/-- C4 counterexample: the raw (un-fenced) serialization of the nested
object `{"a": {"b": 1}}` — a well-formed value of the fragment — is not
recovered.  The lazy regex alternative `\x7b[\s\S]*?\x7d` captures
`{"a": {"b": 1}` up to the *first* `'}'`, which is not valid JSON, and
the whole-content fallback is never reached once the regex has matched,
so extraction fails with `ValueError` instead of returning the value. -/
theorem C4_raw_nested_counterexample :
    wfJson sampleNestedObj = true ∧
    extract_json_from_llm_response (dumps sampleNestedObj) "LLM" =
      .error "No valid JSON found in LLM response" := ⟨rfl, rfl⟩

end DeepracerLLMAgent
